import Mathlib

set_option maxRecDepth 100000

/-!
Verification of the shortest-path core of the `graph_logic` module
(class `Graph`: `load_from_file`, `floyd_warshall`, `_add_unique`,
`has_negative_cycle`, `get_negative_cycle_path`, `get_all_shortest_paths`).

Modelling conventions (shallow embedding of the Python code):

* Distances are `WithTop ℤ` (`⊤` models `float('inf')`; the reference
  input domain is integers, parsed with `int`).  Python's comparisons
  `x < inf`, `x == inf` agree with the `WithTop` order.
* The matrices `L`, `initial_adj` (n×n lists of numbers) and `P`
  (n×n lists of Python lists of ints) are modelled as total functions
  from `ℕ × ℕ`; cells outside `[0,n)²` are never written and are only
  read through `pyIdx`, which models Python's list indexing (negative
  indices wrap, out-of-range raises).  A raised `IndexError` that the
  Python code does not catch is modelled by an `Option` result (`none`).
* Predecessor lists hold `Int` because `load_from_file` appends the raw
  (possibly negative) vertex number `u` from the file.
* A text file is modelled at token level: a line is the list of its
  whitespace-separated tokens, a token is `some k` if Python's `int`
  parses it as `k` and `none` otherwise.  `int(line)` succeeds exactly
  when the stripped line is a single integer token.
* In-place mutation is modelled by sequential functional update.  In
  particular the statement `self.P[i][j] = []` followed by
  `self._add_unique(self.P[i][j], self.P[k][j])` reads `self.P[k][j]`
  *after* the cell `(i,j)` has been replaced by the empty list, which
  matters exactly when `k = i` (the two cells alias).
-/

/-- State of a `graph_logic.Graph` object: vertex count (a Python int,
so possibly negative), distance matrix `L`, predecessor matrix `P` and
the pristine adjacency matrix `initial_adj`. -/
structure Graph where
  num_vertices : Int
  L : Nat → Nat → WithTop Int
  P : Nat → Nat → List Int
  initial_adj : Nat → Nat → WithTop Int

/-- The number of rows/columns actually present in the matrices:
`range(self.num_vertices)` in Python is empty for a negative count. -/
def Graph.n (s : Graph) : Nat := s.num_vertices.toNat

/-- The state built by `Graph.__init__`. -/
def initial_graph : Graph :=
  { num_vertices := 0
    L := fun _ _ => ⊤
    P := fun _ _ => []
    initial_adj := fun _ _ => ⊤ }

/-- Functional update of one cell of a matrix. -/
def updF {α : Type} (M : Nat → Nat → α) (i j : Nat) (v : α) : Nat → Nat → α :=
  fun a b => if a = i ∧ b = j then v else M a b

/-- Python list indexing for a list of length `n`: indices in `[0,n)`
are used directly, indices in `[-n,0)` wrap to `n + i`, anything else
raises `IndexError` (modelled by `none`). -/
def pyIdx (n : Nat) (i : Int) : Option Nat :=
  if 0 ≤ i ∧ i < (n : Int) then some i.toNat
  else if -(n : Int) ≤ i ∧ i < 0 then some ((n : Int) + i).toNat
  else none

/-- `Graph._add_unique`: append each element of `source` to `target`
unless already present (first-seen order, no duplicates introduced). -/
def add_unique (target source : List Int) : List Int :=
  source.foldl (fun t v => if v ∈ t then t else t ++ [v]) target

/-- One iteration of the innermost loop body of `floyd_warshall` for
fixed `(k, i, j)`.  The strict-improvement branch first rebinds
`P[i][j]` to a fresh empty list and then merges `P[k][j]` into it, so
the merge source is read in the updated matrix (alias when `k = i`). -/
def relax (s : Graph) (k i j : Nat) : Graph :=
  if s.L i k ≠ ⊤ ∧ s.L k j ≠ ⊤ then
    let new_dist := s.L i k + s.L k j
    if new_dist < s.L i j then
      let P1 := updF s.P i j []
      { s with L := updF s.L i j new_dist
               P := updF P1 i j (add_unique (P1 i j) (P1 k j)) }
    else if new_dist = s.L i j then
      { s with P := updF s.P i j (add_unique (s.P i j) (s.P k j)) }
    else s
  else s

/-- The innermost `for j in range(n)` loop of `floyd_warshall`. -/
def relax_row (n k i : Nat) (s : Graph) : Graph :=
  (List.range n).foldl (fun t j => relax t k i j) s

/-- The middle `for i in range(n)` loop of `floyd_warshall` (one full
outer iteration for a fixed intermediate vertex `k`). -/
def fw_stage (n k : Nat) (s : Graph) : Graph :=
  (List.range n).foldl (fun t i => relax_row n k i t) s

/-- The outer `for k in range(n)` loop of `floyd_warshall`. -/
def fw_aux (n : Nat) (s : Graph) : Graph :=
  (List.range n).foldl (fun t k => fw_stage n k t) s

/-- `Graph.floyd_warshall` (the `print` call in the loop body does not
change the state and is not modelled). -/
def floyd_warshall (s : Graph) : Graph := fw_aux s.n s

/-- `Graph.has_negative_cycle`. -/
def has_negative_cycle (s : Graph) : Bool :=
  (List.range s.n).any (fun i => decide (s.L i i < 0))

/-- The backward walk of `get_negative_cycle_path`: starting from the
current vertex `curr`, repeatedly step to the first predecessor in
`P[start_node][curr]` until `curr = start_node`, the predecessor list
is empty, or the step budget (`steps < max_steps` in Python) runs out;
in each of these cases the accumulated `path` is returned.  `none`
models an uncaught `IndexError` on `P[start_node][curr]`. -/
def cycle_walk (s : Graph) (s0 : Nat) : Nat → Int → List Int → Option (List Int)
  | 0, _, path => some path
  | fuel + 1, curr, path =>
    if curr = (s0 : Int) then some path
    else
      match pyIdx s.n curr with
      | none => none
      | some c =>
        match s.P s0 c with
        | [] => some path
        | x :: _ => cycle_walk s s0 fuel x (path ++ [x])

/-- `Graph.get_negative_cycle_path`. -/
def get_negative_cycle_path (s : Graph) : Option (List Int) :=
  match (List.range s.n).find? (fun i => decide (s.L i i < 0)) with
  | none => some []
  | some s0 =>
    if s.initial_adj s0 s0 < 0 then some [(s0 : Int), (s0 : Int)]
    else
      match s.P s0 s0 with
      | [] => some []
      | c :: _ =>
        match cycle_walk s s0 (s.n * 2) c [c] with
        | none => none
        | some path =>
          let p := path.reverse
          match p with
          | [] => some p
          | x :: _ =>
            match p.getLast? with
            | some l => if x ≠ l then some (p ++ [x]) else some p
            | none => some p

/-- The `for pred in self.P[start][end]` loop of
`get_all_shortest_paths` (predecessors equal to `stop` already
filtered out): `rec pr` is the recursive call enumerating all optimal
paths to the predecessor `pr`; `stop` is appended to each of them and
the groups are concatenated in predecessor-list order.  A `none` from
any recursive call (exhausted budget / raised index) propagates. -/
def gasp_preds (rec : Int → Option (List (List Int))) (stop : Int) :
    List Int → Option (List (List Int))
  | [] => some []
  | pr :: rest =>
    match rec pr with
    | none => none
    | some subs =>
      match gasp_preds rec stop rest with
      | none => none
      | some more => some (subs.map (fun q => q ++ [stop]) ++ more)

/-- `Graph.get_all_shortest_paths`, with an explicit recursion budget:
the Python function is recursive with no termination guarantee, so the
embedding takes `fuel` and returns `none` when the budget is exhausted
(or when an index would raise).  A `some` result is the value the
Python call returns. -/
def get_all_shortest_paths (s : Graph) : Nat → Int → Int → Option (List (List Int))
  | 0, _, _ => none
  | fuel + 1, start, stop =>
    match pyIdx s.n start, pyIdx s.n stop with
    | some a, some b =>
      if s.L a b = ⊤ then some []
      else if start = stop then some [[start]]
      else gasp_preds (fun pr => get_all_shortest_paths s fuel start pr) stop
          ((s.P a b).filter (fun p => p ≠ stop))
    | _, _ => none

/-- A line of the graph file, as the list of its integer-or-not tokens. -/
abbrev Line := List (Option Int)

/-- Python `int(line)` on a stripped line: succeeds exactly when the
line consists of a single integer token. -/
def pyInt (l : Line) : Option Int :=
  match l with
  | [some k] => some k
  | _ => none

/-- `list(map(int, line.split()))`: all tokens must parse. -/
def line_ints (l : Line) : Option (List Int) := l.mapM id

/-- The matrix `[[INF]*n ...]` after the diagonal has been zeroed. -/
def init_L (n : Nat) : Nat → Nat → WithTop Int :=
  fun i j => if i = j ∧ i < n then (0 : WithTop Int) else ⊤

/-- The `for i in range(num_edges)` loop of `load_from_file`, starting
at file line `idx` with `r` edges still to read.  A line index beyond
the file is tolerated (the `if 2 + i < len(lines)` guard); a token
that `int` rejects, a line with fewer than three tokens, or a vertex
index that raises `IndexError` aborts with `False`, keeping all
mutations made so far. -/
def load_edges (lines : List Line) : Graph → Nat → Nat → Graph × Bool
  | s, _, 0 => (s, true)
  | s, idx, r + 1 =>
    if h : idx < lines.length then
      match line_ints (lines.get ⟨idx, h⟩) with
      | none => (s, false)
      | some parts =>
        match parts with
        | u :: v :: w :: _ =>
          match pyIdx s.n u with
          | none => (s, false)
          | some ui =>
            match pyIdx s.n v with
            | none => (s, false)
            | some vi =>
              load_edges lines
                { s with
                  L := updF s.L ui vi (w : WithTop Int)
                  initial_adj := updF s.initial_adj ui vi (w : WithTop Int)
                  P := if u ∈ s.P ui vi then s.P
                       else updF s.P ui vi (s.P ui vi ++ [u]) }
                (idx + 1) r
        | _ => (s, false)
    else load_edges lines s (idx + 1) r

/-- `Graph.load_from_file`.  The argument is `none` when
`os.path.exists` fails, otherwise the file's lines; blank lines are
dropped before parsing, as in the Python code.  The returned `Bool` is
the method's return value; the returned `Graph` is the state of
`self` afterwards (mutations before a failure are kept, since the
`except` clause only returns `False`). -/
def load_from_file (s : Graph) (file : Option (List Line)) : Graph × Bool :=
  match file with
  | none => (s, false)
  | some raw =>
    let lines := raw.filter (fun l => decide (l ≠ []))
    match lines with
    | [] => (s, false)
    | l0 :: rest =>
      match pyInt l0 with
      | none => (s, false)
      | some nv =>
        let s1 := { s with num_vertices := nv }
        match rest with
        | [] => (s1, false)
        | l1 :: _ =>
          match pyInt l1 with
          | none => (s1, false)
          | some m =>
            let s2 := { s1 with
              L := init_L s1.n
              P := fun _ _ => []
              initial_adj := init_L s1.n }
            load_edges (l0 :: rest) s2 2 m.toNat

/-! ### The relaxation step as described by the specification

`claim_step` is the relaxation step in the words of the specification:
on a strict improvement, `P[i][j]` is reset to the predecessor set
*currently stored* at `P[k][j]` (read in the state the step started
from).  `amended_step` is the same text amended with the aliasing
exception actually exhibited by the code: the merge source is read
after the cell `(i,j)` has been emptied, so when `k = i` the reset
leaves `P[i][j]` empty. -/

/-- The `(k, i, j)` relaxation exactly as the specification words it
(strict improvement resets `P[i][j]` to the pre-step contents of
`P[k][j]`, ties merge `P[k][j]` into `P[i][j]`). -/
def claim_step (s : Graph) (k i j : Nat) : Graph :=
  if s.L i k ≠ ⊤ ∧ s.L k j ≠ ⊤ then
    let candidate := s.L i k + s.L k j
    if candidate < s.L i j then
      { s with L := updF s.L i j candidate
               P := updF s.P i j (add_unique [] (s.P k j)) }
    else if candidate = s.L i j then
      { s with P := updF s.P i j (add_unique (s.P i j) (s.P k j)) }
    else s
  else s

/-- `claim_step` with the aliasing exception: when `k = i` the strict
branch resets `P[i][j]` to the empty list (the merge source is the
freshly emptied cell itself). -/
def amended_step (s : Graph) (k i j : Nat) : Graph :=
  if s.L i k ≠ ⊤ ∧ s.L k j ≠ ⊤ then
    let candidate := s.L i k + s.L k j
    if candidate < s.L i j then
      { s with L := updF s.L i j candidate
               P := updF s.P i j (if k = i then [] else add_unique [] (s.P k j)) }
    else if candidate = s.L i j then
      { s with P := updF s.P i j (add_unique (s.P i j) (s.P k j)) }
    else s
  else s

/-- The triple `k, i, j` loop of `floyd_warshall` run with the
specification's step instead of the code's. -/
def claim_fw (s : Graph) : Graph :=
  (List.range s.n).foldl (fun t1 k =>
    (List.range s.n).foldl (fun t2 i =>
      (List.range s.n).foldl (fun t3 j => claim_step t3 k i j) t2) t1) s

/-! ### Concrete graphs used by the claims

Each `file_*` is the token-level content of a graph file; the loaded
and closed states are obtained by running the embedded code. -/

/-- Spec §8 Example 2: vertices `{0,1,2}`, edges
`(0,1,1), (1,2,2), (0,2,3)` (a tie for the `0 → 2` optimum). -/
def file_tie : List Line :=
  [[some 3], [some 3],
   [some 0, some 1, some 1], [some 1, some 2, some 2], [some 0, some 2, some 3]]

/-- Spec §8 Example 3: edges `(0,1,1), (1,0,-2)` (a negative cycle). -/
def file_negcyc : List Line :=
  [[some 2], [some 2], [some 0, some 1, some 1], [some 1, some 0, some (-2)]]

/-- A zero-weight cycle `1 → 2 → 1` reachable from `0`:
edges `(0,1,0), (1,2,0), (2,1,0)`.  No negative cycle. -/
def file_zerocyc : List Line :=
  [[some 3], [some 3],
   [some 0, some 1, some 0], [some 1, some 2, some 0], [some 2, some 1, some 0]]

/-- A single vertex with the negative self-loop `(0,0,-1)`. -/
def file_alias : List Line :=
  [[some 1], [some 1], [some 0, some 0, some (-1)]]

/-- A single vertex with the positive self-loop `(0,0,5)`. -/
def file_selfloop : List Line :=
  [[some 1], [some 1], [some 0, some 0, some 5]]

/-- Edges `(0,1,-2), (1,0,0), (1,1,-2)`: a negative cycle whose
backward reconstruction walk exceeds the `2n` step bound. -/
def file_boundfail : List Line :=
  [[some 2], [some 3],
   [some 0, some 1, some (-2)], [some 1, some 0, some 0], [some 1, some 1, some (-2)]]

/-- A file whose single edge line holds a token `int` cannot parse. -/
def file_badedge : List Line :=
  [[some 2], [some 1], [some 0, some 1, none]]

/-- A file whose single edge uses the negative source index `-1`. -/
def file_negidx : List Line :=
  [[some 2], [some 1], [some (-1), some 0, some 7]]

/-- Example 2, loaded. -/
def g_tie : Graph := (load_from_file initial_graph (some file_tie)).1

/-- Example 2, closed. -/
def f_tie : Graph := floyd_warshall g_tie

/-- Example 3, loaded. -/
def g_negcyc : Graph := (load_from_file initial_graph (some file_negcyc)).1

/-- Example 3, closed. -/
def f_negcyc : Graph := floyd_warshall g_negcyc

/-- The zero-cycle graph, loaded. -/
def g_zerocyc : Graph := (load_from_file initial_graph (some file_zerocyc)).1

/-- The zero-cycle graph, closed. -/
def f_zerocyc : Graph := floyd_warshall g_zerocyc

/-- The negative-self-loop graph, loaded. -/
def g_alias : Graph := (load_from_file initial_graph (some file_alias)).1

/-- The bound-failure graph, closed. -/
def f_boundfail : Graph :=
  floyd_warshall (load_from_file initial_graph (some file_boundfail)).1

/-! ### Small facts about `updF`, `add_unique` and the step functions -/

theorem updF_self {α : Type} (M : Nat → Nat → α) (i j : Nat) (v : α) :
    updF M i j v i j = v := by
  simp [updF]

theorem updF_of_ne {α : Type} (M : Nat → Nat → α) {i j a b : Nat} (v : α)
    (h : ¬(a = i ∧ b = j)) : updF M i j v a b = M a b := by
  simp [updF, h]

theorem updF_updF {α : Type} (M : Nat → Nat → α) (i j : Nat) (v w : α) :
    updF (updF M i j v) i j w = updF M i j w := by
  funext a b
  by_cases h : a = i ∧ b = j <;> simp [updF, h]

theorem mem_add_unique {x : Int} : ∀ {s t : List Int},
    x ∈ add_unique t s ↔ x ∈ t ∨ x ∈ s := by
  intro s
  induction s with
  | nil => intro t; simp [add_unique]
  | cons v rest ih =>
    intro t
    show x ∈ add_unique (if v ∈ t then t else t ++ [v]) rest ↔ _
    rw [ih]
    by_cases hv : v ∈ t
    · rw [if_pos hv]
      constructor
      · rintro (h | h)
        · exact Or.inl h
        · exact Or.inr (by simp [h])
      · rintro (h | h)
        · exact Or.inl h
        · rcases List.mem_cons.1 h with h1 | h1
          · exact Or.inl (h1 ▸ hv)
          · exact Or.inr h1
    · rw [if_neg hv]
      simp [List.mem_append, or_assoc]

theorem add_unique_eq_self {s t : List Int} (h : ∀ x ∈ s, x ∈ t) :
    add_unique t s = t := by
  induction s generalizing t with
  | nil => rfl
  | cons v rest ih =>
    show add_unique (if v ∈ t then t else t ++ [v]) rest = t
    have hv : v ∈ t := h v (by simp)
    rw [if_pos hv]
    exact ih fun x hx => h x (by simp [hx])

theorem add_unique_eq_nil {s t : List Int} :
    add_unique t s = [] ↔ t = [] ∧ s = [] := by
  constructor
  · intro h
    constructor
    · cases ht : t with
      | nil => rfl
      | cons a l =>
        have : a ∈ add_unique t s := mem_add_unique.2 (Or.inl (by simp [ht]))
        simp [h] at this
    · cases hs : s with
      | nil => rfl
      | cons a l =>
        have : a ∈ add_unique t s := mem_add_unique.2 (Or.inr (by simp [hs]))
        simp [h] at this
  · rintro ⟨h1, h2⟩
    simp [h1, h2, add_unique]

/-- The code's relaxation step coincides with the amended description,
and with the specification's own description whenever `k ≠ i`. -/
theorem relax_eq_amended (s : Graph) (k i j : Nat) :
    relax s k i j = amended_step s k i j ∧
      (k ≠ i → relax s k i j = claim_step s k i j) := by
  have hP1self : updF s.P i j ([] : List Int) i j = [] := updF_self ..
  have hP1kj : updF s.P i j ([] : List Int) k j =
      if k = i then [] else s.P k j := by
    by_cases hk : k = i <;> simp [updF, hk]
  constructor
  · unfold relax amended_step
    by_cases hg : s.L i k ≠ ⊤ ∧ s.L k j ≠ ⊤
    · simp only [if_pos hg]
      by_cases hlt : s.L i k + s.L k j < s.L i j
      · simp only [if_pos hlt]
        congr 1
        rw [updF_updF, hP1self, hP1kj]
        by_cases hk : k = i <;> simp [hk, add_unique]
      · simp [if_neg hlt]
    · simp [if_neg hg]
  · intro hk
    unfold relax claim_step
    by_cases hg : s.L i k ≠ ⊤ ∧ s.L k j ≠ ⊤
    · simp only [if_pos hg]
      by_cases hlt : s.L i k + s.L k j < s.L i j
      · simp only [if_pos hlt]
        congr 1
        rw [updF_updF, hP1self, hP1kj, if_neg hk]
      · simp [if_neg hlt]
    · simp [if_neg hg]

/-! ### Helper lemmas for `get_all_shortest_paths` -/

theorem pyIdx_coe_lt {n i : Nat} (h : i < n) : pyIdx n (i : Int) = some i := by
  have h0 : (0 : Int) ≤ (i : Int) := Int.natCast_nonneg i
  have h1 : (i : Int) < (n : Int) := by exact_mod_cast h
  simp [pyIdx, h0, h1]

/-- No path known: the empty path list is returned. -/
theorem gasp_inf (s : Graph) (st en : Nat) (fuel : Nat)
    (hst : st < s.n) (hen : en < s.n) (hL : s.L st en = ⊤) :
    get_all_shortest_paths s (fuel + 1) (st : Int) (en : Int) = some [] := by
  simp [get_all_shortest_paths, pyIdx_coe_lt hst, pyIdx_coe_lt hen, hL]

/-- `start == end` (with a finite distance): the singleton path. -/
theorem gasp_self (s : Graph) (st : Nat) (fuel : Nat)
    (hst : st < s.n) (hL : s.L st st ≠ ⊤) :
    get_all_shortest_paths s (fuel + 1) (st : Int) (st : Int) = some [[(st : Int)]] := by
  simp [get_all_shortest_paths, pyIdx_coe_lt hst, hL]

/-- The recursive case unfolds to the predecessor loop over
`P[start][end]` with `end` itself filtered out. -/
theorem gasp_step (s : Graph) (st en : Nat) (fuel : Nat)
    (hst : st < s.n) (hen : en < s.n) (hL : s.L st en ≠ ⊤) (hne : (st : Int) ≠ (en : Int)) :
    get_all_shortest_paths s (fuel + 1) (st : Int) (en : Int) =
      gasp_preds (fun pr => get_all_shortest_paths s fuel (st : Int) pr) (en : Int)
        ((s.P st en).filter (fun p => p ≠ (en : Int))) := by
  simp [get_all_shortest_paths, pyIdx_coe_lt hst, pyIdx_coe_lt hen, hL, hne]

/-- If some predecessor's recursive enumeration fails (runs out of
budget), the whole loop fails. -/
theorem gasp_preds_none {rec : Int → Option (List (List Int))} {stop pr : Int}
    {l : List Int} (hpr : rec pr = none) (hmem : pr ∈ l) :
    gasp_preds rec stop l = none := by
  induction l with
  | nil => simp at hmem
  | cons x rest ih =>
    show (match rec x with
      | none => none
      | some subs =>
        match gasp_preds rec stop rest with
        | none => none
        | some more => some (subs.map (fun q => q ++ [stop]) ++ more)) = none
    rcases List.mem_cons.1 hmem with hx | hx
    · rw [hx] at hpr
      rw [hpr]
    · cases hrx : rec x with
      | none => rfl
      | some subs => rw [ih hx]

/-! ### Claim C1 -/

/-- C1, counterexample.  On the one-vertex graph with the self-loop
`(0,0,-1)`, the relaxation `(k,i,j) = (0,0,0)` takes the strict branch
(`-2 < -1`); the specification's step would reset `P[0][0]` to the
pre-step contents `[0]` of `P[k][j] = P[0][0]`, but the code first
rebinds `P[0][0]` to `[]` and then merges the freshly emptied aliased
cell into itself, leaving `P[0][0]` empty: the code's run and the
claimed run disagree. -/
theorem C1_counterexample :
    (claim_fw g_alias).P 0 0 = [0] ∧ (floyd_warshall g_alias).P 0 0 = [] := by
  decide

/-- C1, amended: the relaxation step behaves exactly as the claim
describes, except that in the strict-improvement branch the merge
source `P[k][j]` is read after `P[i][j]` has been reset to a fresh
empty list, so when `k = i` (aliasing) the new `P[i][j]` is empty.
For `k ≠ i` the code's step agrees with the claim's step verbatim. -/
theorem C1_relaxation (s : Graph) (k i j : Nat) :
    relax s k i j = amended_step s k i j ∧
      (k ≠ i → relax s k i j = claim_step s k i j) :=
  relax_eq_amended s k i j

/-- Witness for `C1_relaxation` at a concrete state and indices. -/
theorem C1_relaxation_witness :
    relax g_alias 1 0 0 = amended_step g_alias 1 0 0 ∧
      relax g_alias 1 0 0 = claim_step g_alias 1 0 0 :=
  ⟨(C1_relaxation g_alias 1 0 0).1,
   (C1_relaxation g_alias 1 0 0).2 (by decide)⟩

/-! ### Claim C3 -/

/-- C3.  On a closed graph, `get_all_shortest_paths` returns the empty
list when `L[start][end]` is infinite, the singleton `[[start]]` when
`start = end`, and otherwise the concatenation, in predecessor-list
order, over each predecessor `p ≠ end` of `P[start][end]`, of the
recursively enumerated optimal `start → p` paths with `end` appended
to each; and on the tie graph of Example 2 (`(0,1,1), (1,2,2),
(0,2,3)`) we get `L[0][2] = 3` and the returned list contains both
`[0,1,2]` and `[0,2]`. -/
theorem C3_get_all_shortest_paths :
    (∀ (s : Graph) (st en fuel : Nat), st < s.n → en < s.n → s.L st en = ⊤ →
        get_all_shortest_paths s (fuel + 1) (st : Int) (en : Int) = some []) ∧
    (∀ (s : Graph) (st fuel : Nat), st < s.n → s.L st st ≠ ⊤ →
        get_all_shortest_paths s (fuel + 1) (st : Int) (st : Int) = some [[(st : Int)]]) ∧
    (∀ (s : Graph) (st en fuel : Nat), st < s.n → en < s.n → s.L st en ≠ ⊤ →
        (st : Int) ≠ (en : Int) →
        get_all_shortest_paths s (fuel + 1) (st : Int) (en : Int) =
          gasp_preds (fun pr => get_all_shortest_paths s fuel (st : Int) pr) (en : Int)
            ((s.P st en).filter (fun p => p ≠ (en : Int)))) ∧
    (∀ (rec : Int → Option (List (List Int))) (stop : Int),
        gasp_preds rec stop [] = some []) ∧
    (∀ (rec : Int → Option (List (List Int))) (stop pr : Int) (rest : List Int)
        (subs more : List (List Int)), rec pr = some subs →
        gasp_preds rec stop rest = some more →
        gasp_preds rec stop (pr :: rest) =
          some (subs.map (fun q => q ++ [stop]) ++ more)) ∧
    (f_tie.L 0 2 = some 3 ∧
      get_all_shortest_paths f_tie 10 0 2 = some [[0, 2], [0, 1, 2]] ∧
      [0, 1, 2] ∈ [[0, 2], [0, 1, 2]] ∧ [0, 2] ∈ [[0, 2], [0, 1, 2]]) := by
  refine ⟨gasp_inf, gasp_self, gasp_step, fun rec stop => rfl, ?_, by decide⟩
  intro rec stop pr rest subs more hpr hrest
  show (match rec pr with
    | none => none
    | some subs =>
      match gasp_preds rec stop rest with
      | none => none
      | some more => some (subs.map (fun q => q ++ [stop]) ++ more)) = _
  rw [hpr, hrest]

/-- Witness for `C3_get_all_shortest_paths` on concrete inputs: vertex
`1` has no path back to `0` in Example 2, vertex `0` trivially reaches
itself, and the first recursive unfolding at `(0, 2)`. -/
theorem C3_witness :
    get_all_shortest_paths f_tie 1 ((1 : Nat) : Int) ((0 : Nat) : Int) = some [] ∧
    get_all_shortest_paths f_tie 1 ((0 : Nat) : Int) ((0 : Nat) : Int) =
      some [[((0 : Nat) : Int)]] ∧
    get_all_shortest_paths f_tie 3 ((0 : Nat) : Int) ((2 : Nat) : Int) =
      gasp_preds (fun pr => get_all_shortest_paths f_tie 2 ((0 : Nat) : Int) pr)
        ((2 : Nat) : Int) ((f_tie.P 0 2).filter (fun p => p ≠ ((2 : Nat) : Int))) :=
  ⟨C3_get_all_shortest_paths.1 f_tie 1 0 0 (by decide) (by decide) (by decide),
   C3_get_all_shortest_paths.2.1 f_tie 0 0 (by decide) (by decide),
   C3_get_all_shortest_paths.2.2.1 f_tie 0 2 2 (by decide) (by decide) (by decide)
     (by decide)⟩

/-! ### Claim C6 -/

/-- C6.  On the graph with edges `(0,1,-2), (1,0,0), (1,1,-2)` the
closure leaves `L[0][0] < 0` with `P[0][0] = [1]` and `P[0][1] = [1]`,
so the backward walk from `start_node = 0` loops on vertex `1` and
exhausts the `2n = 4` step bound without reaching `0`: the walk cannot
be completed, yet `get_negative_cycle_path` returns the non-empty list
`[1,1,1,1,1]` (the reversed partial walk, artificially closed) instead
of the empty list the claim requires.  Detection itself is still
`true`. -/
theorem C6_bound_exceeded_returns_nonempty :
    has_negative_cycle f_boundfail = true ∧
    get_negative_cycle_path f_boundfail = some [1, 1, 1, 1, 1] ∧
    ([1, 1, 1, 1, 1] : List Int) ≠ [] ∧
    cycle_walk f_boundfail 0 (f_boundfail.n * 2) 1 [1] = some [1, 1, 1, 1, 1] := by
  decide

/-! ### Claim C8 -/

/-- C8.  The zero-weight cycle graph `(0,1,0), (1,2,0), (2,1,0)` has
no negative cycle (`has_negative_cycle` is `false` after closure), yet
`get_all_shortest_paths(0, 1)` never terminates: the closure leaves
`P[0][1] = [0, 2]` and `P[0][2] = [1]`, so the enumeration of `(0,1)`
recurses into `(0,2)` and vice versa forever.  In the embedding: no
recursion budget whatsoever suffices (the call runs out of fuel for
every fuel), refuting the claimed bound of `n` on the recursion
depth. -/
theorem C8_divergence :
    has_negative_cycle f_zerocyc = false ∧
    ∀ fuel : Nat,
      get_all_shortest_paths f_zerocyc fuel 0 1 = none ∧
      get_all_shortest_paths f_zerocyc fuel 0 2 = none := by
  refine ⟨by decide, ?_⟩
  intro fuel
  induction fuel with
  | zero => exact ⟨rfl, rfl⟩
  | succ f ih =>
    have h01 : get_all_shortest_paths f_zerocyc (f + 1) ((0 : Nat) : Int) ((1 : Nat) : Int) =
        gasp_preds (fun pr => get_all_shortest_paths f_zerocyc f ((0 : Nat) : Int) pr)
          ((1 : Nat) : Int) ((f_zerocyc.P 0 1).filter (fun p => p ≠ ((1 : Nat) : Int))) :=
      gasp_step f_zerocyc 0 1 f (by decide) (by decide) (by decide) (by decide)
    have h02 : get_all_shortest_paths f_zerocyc (f + 1) ((0 : Nat) : Int) ((2 : Nat) : Int) =
        gasp_preds (fun pr => get_all_shortest_paths f_zerocyc f ((0 : Nat) : Int) pr)
          ((2 : Nat) : Int) ((f_zerocyc.P 0 2).filter (fun p => p ≠ ((2 : Nat) : Int))) :=
      gasp_step f_zerocyc 0 2 f (by decide) (by decide) (by decide) (by decide)
    constructor
    · rw [show ((0 : Nat) : Int) = (0 : Int) by norm_num,
        show ((1 : Nat) : Int) = (1 : Int) by norm_num] at h01
      rw [h01, show (f_zerocyc.P 0 1).filter (fun p => p ≠ (1 : Int)) = [0, 2] by decide]
      exact gasp_preds_none ih.2 (by simp)
    · rw [show ((0 : Nat) : Int) = (0 : Int) by norm_num,
        show ((2 : Nat) : Int) = (2 : Int) by norm_num] at h02
      rw [h02, show (f_zerocyc.P 0 2).filter (fun p => p ≠ (2 : Int)) = [1] by decide]
      exact gasp_preds_none ih.1 (by simp)

/-! ### Claim C10 -/

/-- C10.  Every non-empty list returned by `get_negative_cycle_path`
is closed: its first element equals its last (the direct self-loop
answer is `[i, i]`, and a reconstructed walk is explicitly closed by
appending its first vertex whenever first and last differ). -/
theorem C10_closed_walk (s : Graph) (l : List Int)
    (hret : get_negative_cycle_path s = some l) (hne : l ≠ []) :
    l.head? = l.getLast? := by
  unfold get_negative_cycle_path at hret
  cases hfind : (List.range s.n).find? (fun i => decide (s.L i i < 0)) with
  | none =>
    rw [hfind] at hret
    cases hret
    simp at hne
  | some s0 =>
    rw [hfind] at hret
    dsimp only at hret
    by_cases hadj : s.initial_adj s0 s0 < 0
    · rw [if_pos hadj] at hret
      cases hret
      simp
    · rw [if_neg hadj] at hret
      cases hP : s.P s0 s0 with
      | nil =>
        rw [hP] at hret
        cases hret
        simp at hne
      | cons c rest =>
        rw [hP] at hret
        dsimp only at hret
        cases hwalk : cycle_walk s s0 (s.n * 2) c [c] with
        | none => rw [hwalk] at hret; cases hret
        | some path =>
          rw [hwalk] at hret
          dsimp only at hret
          cases hrev : path.reverse with
          | nil =>
            rw [hrev] at hret
            cases hret
            simp at hne
          | cons x xs =>
            rw [hrev] at hret
            have hlast : (x :: xs).getLast? = some ((x :: xs).getLast (by simp)) :=
              List.getLast?_eq_getLast _ _
            rw [hlast] at hret
            dsimp only at hret
            by_cases hx : x ≠ (x :: xs).getLast (by simp)
            · rw [if_pos hx] at hret
              cases hret
              show (x :: (xs ++ [x])).head? = (x :: (xs ++ [x])).getLast?
              rw [← List.cons_append, List.getLast?_concat]
              rfl
            · rw [if_neg hx] at hret
              cases hret
              push_neg at hx
              rw [hlast, ← hx]
              simp

/-- Witness for `C10_closed_walk`: the closed Example 3 returns the
cycle `[0, 1, 0]`. -/
theorem C10_witness : ([0, 1, 0] : List Int).head? = ([0, 1, 0] : List Int).getLast? :=
  C10_closed_walk f_negcyc [0, 1, 0] (by decide) (by decide)

/-! ### Claim C7: the loader's failure behaviour -/

/-- A well-formed edge line for vertex count `n`: every token parses
as an int, at least three tokens are present, and both endpoint
indices are accepted by Python list indexing into a length-`n` list
(i.e. they lie in `[-n, n)`; negative values wrap). -/
def edge_line_ok (n : Nat) (l : Line) : Prop :=
  ∃ u v w rest, line_ints l = some (u :: v :: w :: rest) ∧
    (pyIdx n u).isSome ∧ (pyIdx n v).isSome

theorem load_edges_zero (lines : List Line) (s : Graph) (idx : Nat) :
    load_edges lines s idx 0 = (s, true) := rfl

theorem load_edges_succ (lines : List Line) (s : Graph) (idx r : Nat) :
    load_edges lines s idx (r + 1) =
      if h : idx < lines.length then
        match line_ints (lines.get ⟨idx, h⟩) with
        | none => (s, false)
        | some parts =>
          match parts with
          | u :: v :: w :: _ =>
            match pyIdx s.n u with
            | none => (s, false)
            | some ui =>
              match pyIdx s.n v with
              | none => (s, false)
              | some vi =>
                load_edges lines
                  { s with
                    L := updF s.L ui vi (w : WithTop Int)
                    initial_adj := updF s.initial_adj ui vi (w : WithTop Int)
                    P := if u ∈ s.P ui vi then s.P
                         else updF s.P ui vi (s.P ui vi ++ [u]) }
                  (idx + 1) r
          | _ => (s, false)
      else load_edges lines s (idx + 1) r := rfl


theorem getD_nil_eq_get : ∀ (l : List Line) (idx : Nat) (h : idx < l.length),
    l.getD idx [] = l.get ⟨idx, h⟩ := by
  intro l
  induction l with
  | nil => intro idx h; simp at h
  | cons a t ih =>
    intro idx h
    cases idx with
    | zero => rfl
    | succ m => exact ih m (by simpa using h)

/-- The edge loop returns `True` exactly when every edge line it
actually visits (the first `r`, skipping indices beyond the file) is
well formed. -/
theorem load_edges_true_iff (lines : List Line) :
    ∀ (r : Nat) (s : Graph) (idx : Nat),
      (load_edges lines s idx r).2 = true ↔
        ∀ t, t < r → idx + t < lines.length →
          edge_line_ok s.n (lines.getD (idx + t) []) := by
  intro r
  induction r with
  | zero =>
    intro s idx
    simp [load_edges_zero]
  | succ r ih =>
    intro s idx
    rw [load_edges_succ]
    by_cases hidx : idx < lines.length
    · rw [dif_pos hidx, ← getD_nil_eq_get lines idx hidx]
      cases hline : line_ints (lines.getD idx []) with
      | none =>
        refine iff_of_false (by simp) (fun hall => ?_)
        have h0 : edge_line_ok s.n (lines.getD idx []) :=
          hall 0 (Nat.succ_pos r) (by omega)
        obtain ⟨u', v', w', rest', hsome, -, -⟩ := h0
        rw [hline] at hsome
        cases hsome
      | some parts =>
        match parts with
        | [] =>
          refine iff_of_false (by simp) (fun hall => ?_)
          have h0 : edge_line_ok s.n (lines.getD idx []) :=
            hall 0 (Nat.succ_pos r) (by omega)
          obtain ⟨u', v', w', rest', hsome, -, -⟩ := h0
          rw [hline] at hsome
          simp at hsome
        | [u] =>
          refine iff_of_false (by simp) (fun hall => ?_)
          have h0 : edge_line_ok s.n (lines.getD idx []) :=
            hall 0 (Nat.succ_pos r) (by omega)
          obtain ⟨u', v', w', rest', hsome, -, -⟩ := h0
          rw [hline] at hsome
          simp at hsome
        | [u, v] =>
          refine iff_of_false (by simp) (fun hall => ?_)
          have h0 : edge_line_ok s.n (lines.getD idx []) :=
            hall 0 (Nat.succ_pos r) (by omega)
          obtain ⟨u', v', w', rest', hsome, -, -⟩ := h0
          rw [hline] at hsome
          simp at hsome
        | u :: v :: w :: rest =>
          dsimp only
          cases hu : pyIdx s.n u with
          | none =>
            refine iff_of_false (by simp) (fun hall => ?_)
            have h0 : edge_line_ok s.n (lines.getD idx []) :=
              hall 0 (Nat.succ_pos r) (by omega)
            obtain ⟨u', v', w', rest', hsome, hu', -⟩ := h0
            rw [hline] at hsome
            have hu2 : u' = u := by simp at hsome; exact hsome.1.symm
            rw [hu2, hu] at hu'
            simp at hu'
          | some ui =>
            cases hv : pyIdx s.n v with
            | none =>
              refine iff_of_false (by simp) (fun hall => ?_)
              have h0 : edge_line_ok s.n (lines.getD idx []) :=
                hall 0 (Nat.succ_pos r) (by omega)
              obtain ⟨u', v', w', rest', hsome, -, hv'⟩ := h0
              rw [hline] at hsome
              have hv2 : v' = v := by simp at hsome; exact hsome.2.1.symm
              rw [hv2, hv] at hv'
              simp at hv'
            | some vi =>
              rw [ih]
              have hok : edge_line_ok s.n (lines.getD idx []) :=
                ⟨u, v, w, rest, hline, by rw [hu]; rfl, by rw [hv]; rfl⟩
              constructor
              · intro hall t ht hlt
                cases t with
                | zero => exact hok
                | succ m =>
                  have hm := hall m (by omega) (by omega)
                  rw [show idx + 1 + m = idx + (m + 1) from by omega] at hm
                  exact hm
              · intro hall t ht hlt
                have hm := hall (t + 1) (by omega) (by omega)
                rw [show idx + (t + 1) = idx + 1 + t from by omega] at hm
                exact hm
    · rw [dif_neg hidx, ih]
      constructor
      · intro hall t ht hlt
        exact absurd (by omega : idx < lines.length) hidx
      · intro hall t ht hlt
        exact absurd (by omega : idx < lines.length) hidx

/-- C7, amended.  Unparseable headers, malformed edge lines and
out-of-list-range vertex indices do make `load_from_file` return
`False`; but (a) an edge index in `[-n,-1]` is *accepted* (Python list
indexing wraps it around, it does not fail), and (b) on failure the
object is *not* rolled back: `num_vertices` (and whatever matrices
were built before the failing line) keep their new values, only the
boolean signals failure. -/
theorem C7_load_failure_behaviour :
    (∀ s : Graph, load_from_file s none = (s, false)) ∧
    (∀ (s : Graph) (raw : List Line), raw.filter (fun l => decide (l ≠ [])) = [] →
        load_from_file s (some raw) = (s, false)) ∧
    (∀ (s : Graph) (raw : List Line) (l0 : Line) (rest : List Line),
        raw.filter (fun l => decide (l ≠ [])) = l0 :: rest → pyInt l0 = none →
        load_from_file s (some raw) = (s, false)) ∧
    (∀ (s : Graph) (raw : List Line) (l0 : Line) (nv : Int),
        raw.filter (fun l => decide (l ≠ [])) = [l0] → pyInt l0 = some nv →
        load_from_file s (some raw) = ({ s with num_vertices := nv }, false)) ∧
    (∀ (s : Graph) (raw : List Line) (l0 l1 : Line) (rest : List Line) (nv : Int),
        raw.filter (fun l => decide (l ≠ [])) = l0 :: l1 :: rest → pyInt l0 = some nv →
        pyInt l1 = none →
        load_from_file s (some raw) = ({ s with num_vertices := nv }, false)) ∧
    (∀ (s : Graph) (raw : List Line) (l0 l1 : Line) (rest : List Line) (nv m : Int),
        raw.filter (fun l => decide (l ≠ [])) = l0 :: l1 :: rest → pyInt l0 = some nv →
        pyInt l1 = some m →
        ((load_from_file s (some raw)).2 = true ↔
          ∀ t, t < m.toNat → 2 + t < (l0 :: l1 :: rest).length →
            edge_line_ok nv.toNat ((l0 :: l1 :: rest).getD (2 + t) []))) := by
  refine ⟨fun s => rfl, ?_, ?_, ?_, ?_, ?_⟩
  · intro s raw hfil
    simp only [load_from_file]
    rw [hfil]
  · intro s raw l0 rest hfil hpy
    simp only [load_from_file]
    rw [hfil]
    dsimp only
    rw [hpy]
  · intro s raw l0 nv hfil hpy
    simp only [load_from_file]
    rw [hfil]
    dsimp only
    rw [hpy]
  · intro s raw l0 l1 rest nv hfil hpy0 hpy1
    simp only [load_from_file]
    rw [hfil]
    dsimp only
    rw [hpy0]
    dsimp only
    rw [hpy1]
  · intro s raw l0 l1 rest nv m hfil hpy0 hpy1
    simp only [load_from_file]
    rw [hfil]
    dsimp only
    rw [hpy0]
    dsimp only
    rw [hpy1]
    dsimp only
    exact load_edges_true_iff (l0 :: l1 :: rest) m.toNat _ 2

/-- Witness for `C7_load_failure_behaviour`: the success criterion
instantiated on the negative-index file. -/
theorem C7_witness :
    (load_from_file initial_graph (some file_negidx)).2 = true ↔
      ∀ t, t < (1 : Int).toNat → 2 + t < ([[some 2], [some 1], [some (-1), some 0, some 7]] : List Line).length →
        edge_line_ok (2 : Int).toNat
          (([[some 2], [some 1], [some (-1), some 0, some 7]] : List Line).getD (2 + t) []) :=
  C7_load_failure_behaviour.2.2.2.2.2 initial_graph file_negidx
    [some 2] [some 1] [[some (-1), some 0, some 7]] 2 1 (by decide) rfl rfl

/-- C7, counterexample.  The edge `-1 0 7` is out of `[0, n)` (its
source is negative), yet `load_from_file` returns `True` — Python's
list indexing wraps `-1` to row `n - 1 = 1`, storing weight `7` at
`L[1][0]` and the raw value `-1` in `P[1][0]`.  And on the file whose
edge line `0 1 x` fails to parse, `load_from_file` returns `False`
but `num_vertices` has already been overwritten with `2` (it was `0`
before the call): the partially built state is exposed. -/
theorem C7_counterexample :
    (load_from_file initial_graph (some file_negidx)).2 = true ∧
    (load_from_file initial_graph (some file_negidx)).1.L 1 0 = some 7 ∧
    (load_from_file initial_graph (some file_negidx)).1.P 1 0 = [-1] ∧
    (load_from_file initial_graph (some file_badedge)).2 = false ∧
    (load_from_file initial_graph (some file_badedge)).1.num_vertices = 2 ∧
    initial_graph.num_vertices = 0 := by
  decide

/-! ### Walks in a weighted graph

`floyd_warshall` manipulates entries of `L`; to relate them to the
input topology we use finite-weight walks over a weight function `W`
(`W = initial_adj` of the loaded graph, which coincides with the
initial `L`).  A walk is a vertex list whose consecutive pairs all
carry a finite weight. -/

/-- The vertex list `vs` is a walk for the weight matrix `W`. -/
def is_walk (W : Nat → Nat → WithTop Int) : List Nat → Prop
  | [] => True
  | [_] => True
  | a :: b :: rest => W a b ≠ ⊤ ∧ is_walk W (b :: rest)

/-- Total weight of the walk `vs`. -/
def walk_cost (W : Nat → Nat → WithTop Int) : List Nat → WithTop Int
  | [] => 0
  | [_] => 0
  | a :: b :: rest => W a b + walk_cost W (b :: rest)

theorem is_walk_cons_cons {W : Nat → Nat → WithTop Int} {a b : Nat} {l : List Nat} :
    is_walk W (a :: b :: l) ↔ W a b ≠ ⊤ ∧ is_walk W (b :: l) := Iff.rfl

theorem walk_cost_cons_cons (W : Nat → Nat → WithTop Int) (a b : Nat) (l : List Nat) :
    walk_cost W (a :: b :: l) = W a b + walk_cost W (b :: l) := rfl

/-- Splitting / joining a walk at an interior occurrence of `m`. -/
theorem walk_cost_split (W : Nat → Nat → WithTop Int) :
    ∀ (xs : List Nat) (m : Nat) (ys : List Nat),
      walk_cost W (xs ++ m :: ys) = walk_cost W (xs ++ [m]) + walk_cost W (m :: ys) := by
  intro xs
  induction xs with
  | nil =>
    intro m ys
    show walk_cost W (m :: ys) = walk_cost W [m] + walk_cost W (m :: ys)
    show walk_cost W (m :: ys) = 0 + walk_cost W (m :: ys)
    rw [zero_add]
  | cons a xs ih =>
    intro m ys
    cases xs with
    | nil =>
      show walk_cost W (a :: m :: ys) = walk_cost W [a, m] + walk_cost W (m :: ys)
      rw [walk_cost_cons_cons, walk_cost_cons_cons]
      show _ = W a m + 0 + _
      rw [add_zero]
    | cons b xs2 =>
      show walk_cost W (a :: b :: (xs2 ++ m :: ys)) = _
      rw [walk_cost_cons_cons]
      have := ih m ys
      rw [show (b :: xs2) ++ m :: ys = b :: (xs2 ++ m :: ys) from rfl] at this
      rw [this]
      show _ = walk_cost W (a :: b :: (xs2 ++ [m])) + walk_cost W (m :: ys)
      rw [walk_cost_cons_cons, add_assoc]
      rfl

theorem is_walk_split {W : Nat → Nat → WithTop Int} :
    ∀ (xs : List Nat) (m : Nat) (ys : List Nat),
      is_walk W (xs ++ m :: ys) → is_walk W (xs ++ [m]) ∧ is_walk W (m :: ys) := by
  intro xs
  induction xs with
  | nil =>
    intro m ys h
    exact ⟨trivial, h⟩
  | cons a xs ih =>
    intro m ys h
    cases xs with
    | nil =>
      rcases (is_walk_cons_cons).1 h with ⟨hlink, hrest⟩
      exact ⟨⟨hlink, trivial⟩, hrest⟩
    | cons b xs2 =>
      rcases (is_walk_cons_cons).1 h with ⟨hlink, hrest⟩
      rcases ih m ys hrest with ⟨h1, h2⟩
      exact ⟨⟨hlink, h1⟩, h2⟩

theorem is_walk_join {W : Nat → Nat → WithTop Int} :
    ∀ (xs : List Nat) (m : Nat) (ys : List Nat),
      is_walk W (xs ++ [m]) → is_walk W (m :: ys) → is_walk W (xs ++ m :: ys) := by
  intro xs
  induction xs with
  | nil =>
    intro m ys _ h2
    exact h2
  | cons a xs ih =>
    intro m ys h1 h2
    cases xs with
    | nil =>
      rcases (is_walk_cons_cons).1 h1 with ⟨hlink, -⟩
      exact ⟨hlink, h2⟩
    | cons b xs2 =>
      rcases (is_walk_cons_cons).1 h1 with ⟨hlink, hrest⟩
      exact ⟨hlink, ih m ys hrest h2⟩

/-! ### Structural facts about the relaxation and its loops -/

/-- Relaxation leaves `num_vertices` alone. -/
theorem relax_num_vertices (s : Graph) (k i j : Nat) :
    (relax s k i j).num_vertices = s.num_vertices := by
  unfold relax
  split
  · dsimp only
    split
    · rfl
    · split
      · rfl
      · rfl
  · rfl

/-- Relaxation leaves `initial_adj` alone. -/
theorem relax_initial_adj (s : Graph) (k i j : Nat) :
    (relax s k i j).initial_adj = s.initial_adj := by
  unfold relax
  split
  · dsimp only
    split
    · rfl
    · split
      · rfl
      · rfl
  · rfl

/-- Relaxation of `(k,i,j)` leaves every `L`-cell other than `(i,j)`
alone. -/
theorem relax_L_off (s : Graph) (k i j a b : Nat) (hab : ¬(a = i ∧ b = j)) :
    (relax s k i j).L a b = s.L a b := by
  unfold relax
  split
  · dsimp only
    split
    · exact updF_of_ne _ _ hab
    · split
      · rfl
      · rfl
  · rfl

/-- Relaxation of `(k,i,j)` leaves every `P`-cell other than `(i,j)`
alone. -/
theorem relax_P_off (s : Graph) (k i j a b : Nat) (hab : ¬(a = i ∧ b = j)) :
    (relax s k i j).P a b = s.P a b := by
  unfold relax
  split
  · dsimp only
    split
    · show updF (updF s.P i j []) i j _ a b = s.P a b
      rw [updF_of_ne _ _ hab, updF_of_ne _ _ hab]
    · split
      · exact updF_of_ne _ _ hab
      · rfl
  · rfl

/-- Case analysis on what a relaxation does to a cell of `L`. -/
theorem relax_L_cases (s : Graph) (k i j a b : Nat) :
    (relax s k i j).L a b = s.L a b ∨
      (a = i ∧ b = j ∧ s.L i k ≠ ⊤ ∧ s.L k j ≠ ⊤ ∧
        s.L i k + s.L k j < s.L i j ∧
        (relax s k i j).L a b = s.L i k + s.L k j) := by
  unfold relax
  split
  next hg =>
    dsimp only
    split
    next hlt =>
      by_cases hab : a = i ∧ b = j
      · refine Or.inr ⟨hab.1, hab.2, hg.1, hg.2, hlt, ?_⟩
        show updF s.L i j _ a b = _
        rw [hab.1, hab.2, updF_self]
      · exact Or.inl (updF_of_ne _ _ hab)
    next hlt =>
      split
      · exact Or.inl rfl
      · exact Or.inl rfl
  next hg => exact Or.inl rfl

/-- Relaxations never increase distances. -/
theorem relax_L_le (s : Graph) (k i j a b : Nat) :
    (relax s k i j).L a b ≤ s.L a b := by
  rcases relax_L_cases s k i j a b with h | ⟨ha, hb, -, -, hlt, hv⟩
  · rw [h]
  · rw [hv, ha, hb]
    exact le_of_lt hlt

/-- After the `(k,i,j)` relaxation, `L[i][j]` is bounded by the
candidate `L[i][k] + L[k][j]` read in the pre-step state. -/
theorem relax_L_le_cand (s : Graph) (k i j : Nat) :
    (relax s k i j).L i j ≤ s.L i k + s.L k j := by
  unfold relax
  split
  next hg =>
    dsimp only
    split
    next hlt =>
      show updF s.L i j _ i j ≤ _
      rw [updF_self]
    next hlt =>
      split
      next heq => exact le_of_eq heq.symm
      next heq => exact le_of_not_lt hlt
  next hg =>
    rcases not_and_or.1 hg with h | h
    · rw [not_not.1 h, top_add]
      exact le_top
    · rw [not_not.1 h, add_top]
      exact le_top

/-- Invariants preserved by every relaxation survive any of the
`floyd_warshall` loops. -/
theorem foldl_invar {α : Type} (f : Graph → α → Graph) (I : Graph → Prop)
    (l : List α) (h : ∀ t a, I t → I (f t a)) :
    ∀ s, I s → I (l.foldl f s) := by
  induction l with
  | nil => intro s hs; exact hs
  | cons a rest ih =>
    intro s hs
    exact ih (f s a) (h s a hs)

theorem relax_invar_fw (I : Graph → Prop)
    (h : ∀ t k i j, I t → I (relax t k i j)) (n : Nat) :
    ∀ s, I s → I (fw_aux n s) := by
  intro s hs
  refine foldl_invar _ I _ (fun t k ht => ?_) s hs
  refine foldl_invar _ I _ (fun t2 i ht2 => ?_) t ht
  exact foldl_invar _ I _ (fun t3 j ht3 => h t3 k i j ht3) t2 ht2

theorem relax_invar_stage (I : Graph → Prop)
    (h : ∀ t k i j, I t → I (relax t k i j)) (n k : Nat) :
    ∀ s, I s → I (fw_stage n k s) := by
  intro s hs
  refine foldl_invar _ I _ (fun t2 i ht2 => ?_) s hs
  exact foldl_invar _ I _ (fun t3 j ht3 => h t3 k i j ht3) t2 ht2

/-- `num_vertices` and `initial_adj` survive the whole closure. -/
theorem fw_aux_fields (n : Nat) (s : Graph) :
    (fw_aux n s).num_vertices = s.num_vertices ∧
    (fw_aux n s).initial_adj = s.initial_adj := by
  have := relax_invar_fw
    (fun t => t.num_vertices = s.num_vertices ∧ t.initial_adj = s.initial_adj)
    (fun t k i j ht => by
      exact ⟨(relax_num_vertices t k i j).trans ht.1,
        (relax_initial_adj t k i j).trans ht.2⟩) n s ⟨rfl, rfl⟩
  exact this

theorem fw_stage_fields (n k : Nat) (s : Graph) :
    (fw_stage n k s).num_vertices = s.num_vertices ∧
    (fw_stage n k s).initial_adj = s.initial_adj := by
  have := relax_invar_stage
    (fun t => t.num_vertices = s.num_vertices ∧ t.initial_adj = s.initial_adj)
    (fun t k i j ht => by
      exact ⟨(relax_num_vertices t k i j).trans ht.1,
        (relax_initial_adj t k i j).trans ht.2⟩) n k s ⟨rfl, rfl⟩
  exact this

/-- Distances never increase across a whole loop. -/
theorem foldl_L_le {α : Type} (f : Graph → α → Graph)
    (hstep : ∀ t a a1 b1, (f t a).L a1 b1 ≤ t.L a1 b1) (l : List α) :
    ∀ s a1 b1, (l.foldl f s).L a1 b1 ≤ s.L a1 b1 := by
  induction l with
  | nil => intro s a1 b1; exact le_refl _
  | cons a rest ih =>
    intro s a1 b1
    exact le_trans (ih (f s a) a1 b1) (hstep s a a1 b1)

theorem relax_row_L_le (n k i : Nat) (s : Graph) (a b : Nat) :
    (relax_row n k i s).L a b ≤ s.L a b := by
  exact foldl_L_le _ (fun t2 j a2 b2 => relax_L_le t2 k i j a2 b2) (List.range n) s a b

theorem fw_stage_L_le (n k : Nat) (s : Graph) (a b : Nat) :
    (fw_stage n k s).L a b ≤ s.L a b := by
  exact foldl_L_le _ (fun t i a1 b1 => relax_row_L_le n k i t a1 b1) (List.range n) s a b

theorem fw_aux_L_le (n : Nat) (s : Graph) (a b : Nat) :
    (fw_aux n s).L a b ≤ s.L a b := by
  exact foldl_L_le _ (fun t k a1 b1 => fw_stage_L_le n k t a1 b1) (List.range n) s a b

/-! ### Soundness: every finite distance is the cost of a real walk -/

/-- Every finite entry of `L` is the cost of an actual walk (with at
least one step) in the weighted graph `W`. -/
def sound_L (W : Nat → Nat → WithTop Int) (s : Graph) : Prop :=
  ∀ i j, s.L i j ≠ ⊤ →
    ∃ ms, is_walk W (i :: ms ++ [j]) ∧ walk_cost W (i :: ms ++ [j]) = s.L i j

/-- Concatenation of an `i → k` walk and a `k → j` walk. -/
theorem walk_concat {W : Nat → Nat → WithTop Int} {i k j : Nat} {ms1 ms2 : List Nat}
    (h1 : is_walk W (i :: ms1 ++ [k])) (h2 : is_walk W (k :: ms2 ++ [j])) :
    is_walk W (i :: (ms1 ++ k :: ms2) ++ [j]) ∧
      walk_cost W (i :: (ms1 ++ k :: ms2) ++ [j]) =
        walk_cost W (i :: ms1 ++ [k]) + walk_cost W (k :: ms2 ++ [j]) := by
  have hform : i :: (ms1 ++ k :: ms2) ++ [j] = (i :: ms1) ++ k :: (ms2 ++ [j]) := by
    simp
  constructor
  · rw [hform]
    exact is_walk_join (i :: ms1) k (ms2 ++ [j]) h1 h2
  · rw [hform, walk_cost_split W (i :: ms1) k (ms2 ++ [j])]
    rfl

/-- Relaxation preserves walk-soundness of `L`. -/
theorem sound_relax (W : Nat → Nat → WithTop Int) (s : Graph) (k i j : Nat)
    (h : sound_L W s) : sound_L W (relax s k i j) := by
  intro a b hne
  rcases relax_L_cases s k i j a b with hcase | ⟨ha, hb, hik, hkj, -, hv⟩
  · rw [hcase] at hne ⊢
    exact h a b hne
  · obtain ⟨ms1, hw1, hc1⟩ := h i k hik
    obtain ⟨ms2, hw2, hc2⟩ := h k j hkj
    obtain ⟨hw, hc⟩ := walk_concat hw1 hw2
    subst ha
    subst hb
    exact ⟨ms1 ++ k :: ms2, hw, by rw [hc, hc1, hc2, hv]⟩

/-- Walk-soundness holds after the full closure. -/
theorem sound_fw (W : Nat → Nat → WithTop Int) (n : Nat) (s : Graph)
    (h : sound_L W s) : sound_L W (fw_aux n s) :=
  relax_invar_fw (sound_L W) (fun t k i j ht => sound_relax W t k i j ht) n s h

/-! ### Decomposing a negative closed walk into a simple negative cycle -/

theorem exists_dup_split {l : List Nat} (h : ¬ l.Nodup) :
    ∃ (y : Nat) (xs ys zs : List Nat), l = xs ++ y :: (ys ++ y :: zs) := by
  induction l with
  | nil => exact absurd List.nodup_nil h
  | cons a t ih =>
    by_cases hat : a ∈ t
    · obtain ⟨p, q, hpq⟩ := List.append_of_mem hat
      exact ⟨a, [], p, q, by rw [hpq]; rfl⟩
    · have ht : ¬ t.Nodup := fun hnd => h (List.nodup_cons.2 ⟨hat, hnd⟩)
      obtain ⟨y, xs, ys, zs, hdec⟩ := ih ht
      exact ⟨y, a :: xs, ys, zs, by rw [hdec]; rfl⟩

/-- Any closed walk of negative cost contains a *simple* closed walk
of negative cost over a subset of its vertices. -/
theorem neg_closed_to_simple (W : Nat → Nat → WithTop Int) :
    ∀ (fuel : Nat) (v : Nat) (ms : List Nat), (v :: ms ++ [v]).length ≤ fuel →
      is_walk W (v :: ms ++ [v]) → walk_cost W (v :: ms ++ [v]) < 0 →
      ∃ (w : Nat) (ns : List Nat), is_walk W (w :: ns ++ [w]) ∧ (w :: ns).Nodup ∧
        walk_cost W (w :: ns ++ [w]) < 0 ∧ ∀ x ∈ w :: ns, x ∈ v :: ms := by
  intro fuel
  induction fuel with
  | zero =>
    intro v ms hlen
    exfalso
    simp at hlen
  | succ fuel ih =>
    intro v ms hlen hwalk hcost
    by_cases hnd : (v :: ms).Nodup
    · exact ⟨v, ms, hwalk, hnd, hcost, fun x hx => hx⟩
    · obtain ⟨y, xs, ys, zs, hdec⟩ := exists_dup_split hnd
      have hc : v :: ms ++ [v] = xs ++ y :: (ys ++ y :: (zs ++ [v])) := by
        rw [show v :: ms ++ [v] = (v :: ms) ++ [v] from rfl, hdec]
        simp
      -- split into prefix, closed middle, suffix
      have hsplit1w := is_walk_split xs y (ys ++ y :: (zs ++ [v])) (by rw [← hc]; exact hwalk)
      have hsplit1c := walk_cost_split W xs y (ys ++ y :: (zs ++ [v]))
      have hsplit2w := is_walk_split (y :: ys) y (zs ++ [v])
        (by have := hsplit1w.2; rwa [show y :: (ys ++ y :: (zs ++ [v])) = (y :: ys) ++ y :: (zs ++ [v]) from rfl] at this)
      have hsplit2c := walk_cost_split W (y :: ys) y (zs ++ [v])
      set A := walk_cost W (xs ++ [y]) with hA
      set B := walk_cost W ((y :: ys) ++ [y]) with hB
      set C := walk_cost W (y :: (zs ++ [v])) with hC
      have hcost2 : walk_cost W (v :: ms ++ [v]) = A + (B + C) := by
        rw [hc, hsplit1c]
        rw [show y :: (ys ++ y :: (zs ++ [v])) = (y :: ys) ++ y :: (zs ++ [v]) from rfl]
        rw [hsplit2c]
      by_cases hBneg : B < 0
      · -- recurse on the closed middle walk y :: ys ++ [y]
        have hwB : is_walk W (y :: ys ++ [y]) := hsplit2w.1
        have hlenB : (y :: ys ++ [y]).length ≤ fuel := by
          have h1 : (v :: ms ++ [v]).length = xs.length + ys.length + zs.length + 3 := by
            rw [hc]; simp; omega
          simp at hlen h1 ⊢
          omega
        obtain ⟨w, ns, hw1, hw2, hw3, hw4⟩ := ih y ys hlenB hwB hBneg
        refine ⟨w, ns, hw1, hw2, hw3, fun x hx => ?_⟩
        have : x ∈ y :: ys := hw4 x hx
        have hsub : ∀ z ∈ y :: ys, z ∈ v :: ms := by
          intro z hz
          have : z ∈ (v :: ms) := by
            rw [hdec]
            rcases List.mem_cons.1 hz with h1 | h1
            · subst h1; simp
            · simp [h1]
          exact this
        exact hsub x this
      · -- drop the non-negative closed middle walk
        have hB0 : 0 ≤ B := le_of_not_lt hBneg
        have hwC' : is_walk W (xs ++ y :: (zs ++ [v])) :=
          is_walk_join xs y (zs ++ [v]) hsplit1w.1 hsplit2w.2
        have hcC' : walk_cost W (xs ++ y :: (zs ++ [v])) = A + C :=
          walk_cost_split W xs y (zs ++ [v])
        have hcost3 : A + C < 0 := by
          have hle : A + C ≤ A + (B + C) := by
            have : C ≤ B + C := le_add_of_nonneg_left hB0
            exact add_le_add_left this A
          calc A + C ≤ A + (B + C) := hle
            _ = walk_cost W (v :: ms ++ [v]) := hcost2.symm
            _ < 0 := hcost
        -- the reduced list still has the closed-walk shape
        cases xs with
        | nil =>
          have hyv : v = y := by
            have := hdec
            simp at this
            exact this.1
          subst hyv
          have hform : ([] : List Nat) ++ v :: (zs ++ [v]) = v :: zs ++ [v] := by simp
          have hlen2 : (v :: zs ++ [v]).length ≤ fuel := by
            have h1 : (v :: ms ++ [v]).length = ys.length + zs.length + 3 := by
              rw [hc]; simp; omega
            simp at hlen h1 ⊢
            omega
          obtain ⟨w, ns, hw1, hw2, hw3, hw4⟩ := ih v zs hlen2
            (show is_walk W (v :: zs ++ [v]) from hwC')
            (by
              have h2 : walk_cost W (v :: zs ++ [v]) = A + C := hcC'
              rw [h2]
              exact hcost3)
          refine ⟨w, ns, hw1, hw2, hw3, fun x hx => ?_⟩
          have hx2 := hw4 x hx
          rcases List.mem_cons.1 hx2 with h1 | h1
          · subst h1; simp
          · rw [hdec]
            simp [h1]
        | cons x0 xs' =>
          have hx0 : x0 = v ∧ ms = xs' ++ y :: (ys ++ y :: zs) := by
            have h2 : v :: ms = x0 :: (xs' ++ y :: (ys ++ y :: zs)) := by
              rw [hdec]
              rfl
            injection h2 with ha hb
            exact ⟨ha.symm, hb⟩
          have hform : (x0 :: xs') ++ y :: (zs ++ [v]) = v :: (xs' ++ y :: zs) ++ [v] := by
            rw [hx0.1]
            simp
          have hlen2 : (v :: (xs' ++ y :: zs) ++ [v]).length ≤ fuel := by
            have h1 : (v :: ms ++ [v]).length = xs'.length + ys.length + zs.length + 4 := by
              rw [hc]
              simp
              omega
            simp at hlen h1 ⊢
            omega
          obtain ⟨w, ns, hw1, hw2, hw3, hw4⟩ := ih v (xs' ++ y :: zs) hlen2
            (by rw [← hform]; exact hwC') (by rw [← hform, hcC']; exact hcost3)
          refine ⟨w, ns, hw1, hw2, hw3, fun x hx => ?_⟩
          have hx2 := hw4 x hx
          rcases List.mem_cons.1 hx2 with h1 | h1
          · subst h1
            simp
          · have hxm : x ∈ ms := by
              rw [hx0.2]
              rcases List.mem_append.1 h1 with h2 | h2
              · exact List.mem_append.2 (Or.inl h2)
              · rcases List.mem_cons.1 h2 with h3 | h3
                · subst h3
                  simp
                · refine List.mem_append.2 (Or.inr ?_)
                  simp [h3]
            simp [hxm]

/-! ### Upper bound: after stage `k`, `L[i][j]` is at most the cost of
any walk whose interior vertices are distinct, avoid the endpoints and
are all below `k` -/

/-- A walk witnessing the Floyd-Warshall stage invariant: endpoints
`i`, `j`, interior `ms` duplicate-free, avoiding the endpoints, and
all interior vertices below `bound`. -/
def ub_walk (W : Nat → Nat → WithTop Int) (bound i j : Nat) (vs : List Nat) : Prop :=
  ∃ ms, vs = i :: ms ++ [j] ∧ is_walk W vs ∧ ms.Nodup ∧
    i ∉ ms ∧ j ∉ ms ∧ ∀ x ∈ ms, x < bound

/-- `L` is below the cost of every such walk. -/
def ub_prop (W : Nat → Nat → WithTop Int) (bound : Nat) (s : Graph) : Prop :=
  ∀ i j vs, ub_walk W bound i j vs → s.L i j ≤ walk_cost W vs

/-- Before any stage, only single edges qualify, and `L` equals the
edge weights. -/
theorem ub_zero (W : Nat → Nat → WithTop Int) (s : Graph)
    (hLW : ∀ i j, s.L i j = W i j) : ub_prop W 0 s := by
  rintro i j vs ⟨ms, hform, hwalk, -, -, -, hbnd⟩
  have hms : ms = [] := by
    cases ms with
    | nil => rfl
    | cons a rest => exact absurd (hbnd a (by simp)) (by omega)
  subst hms
  rw [hform]
  show s.L i j ≤ walk_cost W [i, j]
  rw [walk_cost_cons_cons]
  show _ ≤ W i j + 0
  rw [add_zero, hLW]

/-- After one full stage for intermediate `k`, every `L[i][j]` with
`i, j < n` is bounded by the candidate through `k` read at stage
entry. -/
theorem stage_le (n k : Nat) (s : Graph) (i j : Nat)
    (hi : i < n) (hj : j < n) :
    (fw_stage n k s).L i j ≤ s.L i k + s.L k j := by
  have hmid : ∀ t : Graph, (relax_row n k i t).L i j ≤ t.L i k + t.L k j := by
    intro t
    obtain ⟨m1, m2, hsplit2⟩ := List.append_of_mem (List.mem_range.2 hj)
    show ((List.range n).foldl (fun u b => relax u k i b) t).L i j ≤ _
    rw [hsplit2, List.foldl_append, List.foldl_cons]
    have hpre : ∀ a b, (m1.foldl (fun u b => relax u k i b) t).L a b ≤ t.L a b :=
      fun a b => foldl_L_le _ (fun u c a2 b2 => relax_L_le u k i c a2 b2) m1 t a b
    refine le_trans
      (foldl_L_le _ (fun u c a2 b2 => relax_L_le u k i c a2 b2) m2 _ i j) ?_
    refine le_trans (relax_L_le_cand _ k i j) ?_
    exact add_le_add (hpre i k) (hpre k j)
  obtain ⟨l1, l2, hsplit⟩ := List.append_of_mem (List.mem_range.2 hi)
  show ((List.range n).foldl (fun t a => relax_row n k a t) s).L i j ≤ _
  rw [hsplit, List.foldl_append, List.foldl_cons]
  have hpre1 : ∀ a b, (l1.foldl (fun t a => relax_row n k a t) s).L a b ≤ s.L a b :=
    fun a b => foldl_L_le _ (fun t c a2 b2 => relax_row_L_le n k c t a2 b2) l1 s a b
  refine le_trans
    (foldl_L_le _ (fun t c a2 b2 => relax_row_L_le n k c t a2 b2) l2 _ i j) ?_
  refine le_trans (hmid _) ?_
  exact add_le_add (hpre1 i k) (hpre1 k j)

/-- Every vertex of a walk with at least one edge is the endpoint of a
finite-weight link, hence in range when `W` is supported on
`[0,n)²`. -/
theorem walk_all_lt {W : Nat → Nat → WithTop Int} {n : Nat}
    (hW : ∀ a b, W a b ≠ ⊤ → a < n ∧ b < n) :
    ∀ (vs : List Nat), is_walk W vs → 2 ≤ vs.length → ∀ x ∈ vs, x < n := by
  intro vs
  induction vs with
  | nil => intro _ h; simp at h
  | cons a t ih =>
    intro hwalk hlen x hx
    cases t with
    | nil => simp at hlen
    | cons b t2 =>
      rcases (is_walk_cons_cons).1 hwalk with ⟨hlink, hrest⟩
      rcases List.mem_cons.1 hx with h1 | h1
      · subst h1
        exact (hW x b hlink).1
      · cases t2 with
        | nil =>
          have hb : x = b := by simpa using h1
          subst hb
          exact (hW a x hlink).2
        | cons c t3 =>
          exact ih hrest (by simp) x h1

/-- Processing stage `k` upgrades the walk bound from `k` to `k+1`. -/
theorem ub_stage (W : Nat → Nat → WithTop Int) (n k : Nat) (s : Graph)
    (hW : ∀ a b, W a b ≠ ⊤ → a < n ∧ b < n)
    (h : ub_prop W k s) : ub_prop W (k + 1) (fw_stage n k s) := by
  rintro i j vs ⟨ms, hform, hwalk, hnd, hims, hjms, hbnd⟩
  by_cases hkms : k ∈ ms
  · obtain ⟨m1, m2, hms⟩ := List.append_of_mem hkms
    have hvs2 : vs = (i :: m1) ++ k :: (m2 ++ [j]) := by
      rw [hform, hms]
      simp
    obtain ⟨hw1, hw2⟩ := is_walk_split (i :: m1) k (m2 ++ [j]) (by rw [← hvs2]; exact hwalk)
    have hnd2 : (m1 ++ k :: m2).Nodup := hms ▸ hnd
    obtain ⟨hndm1, hndkm2, hdisj⟩ := List.nodup_append.1 hnd2
    have hkm1 : k ∉ m1 := fun hk => hdisj hk (by simp)
    have hkm2 : k ∉ m2 := (List.nodup_cons.1 hndkm2).1
    have hub1 : ub_walk W k i k (i :: m1 ++ [k]) := by
      refine ⟨m1, rfl, hw1, hndm1, fun hm => hims (hms ▸ List.mem_append.2 (Or.inl hm)),
        hkm1, fun x hx => ?_⟩
      have hlt : x < k + 1 := hbnd x (hms ▸ List.mem_append.2 (Or.inl hx))
      have hne : x ≠ k := fun he => hkm1 (he ▸ hx)
      omega
    have hub2 : ub_walk W k k j (k :: m2 ++ [j]) := by
      refine ⟨m2, rfl, hw2, (List.nodup_cons.1 hndkm2).2, hkm2,
        fun hm => hjms (hms ▸ List.mem_append.2 (Or.inr (by simp [hm]))), fun x hx => ?_⟩
      have hlt : x < k + 1 := hbnd x (hms ▸ List.mem_append.2 (Or.inr (by simp [hx])))
      have hne : x ≠ k := fun he => hkm2 (he ▸ hx)
      omega
    have hik : s.L i k ≤ walk_cost W (i :: m1 ++ [k]) := h i k _ hub1
    have hkj : s.L k j ≤ walk_cost W (k :: m2 ++ [j]) := h k j _ hub2
    have hij : i < n ∧ j < n := by
      have h2 : 2 ≤ vs.length := by
        rw [hform]
        simp
      have hall := walk_all_lt hW vs hwalk h2
      constructor
      · exact hall i (by rw [hform]; simp)
      · exact hall j (by rw [hform]; simp)
    have hcost : walk_cost W vs = walk_cost W (i :: m1 ++ [k]) + walk_cost W (k :: m2 ++ [j]) := by
      rw [hvs2, walk_cost_split W (i :: m1) k (m2 ++ [j])]
      rfl
    rw [hcost]
    refine le_trans (stage_le n k s i j hij.1 hij.2) ?_
    exact add_le_add hik hkj
  · have hub : ub_walk W k i j vs := by
      refine ⟨ms, hform, hwalk, hnd, hims, hjms, fun x hx => ?_⟩
      have hlt : x < k + 1 := hbnd x hx
      have hne : x ≠ k := fun he => hkms (he ▸ hx)
      omega
    exact le_trans (fw_stage_L_le n k s i j) (h i j vs hub)

/-- The walk upper bound after the complete closure. -/
theorem ub_fw (W : Nat → Nat → WithTop Int) (n : Nat) (s : Graph)
    (hW : ∀ a b, W a b ≠ ⊤ → a < n ∧ b < n)
    (h0 : ub_prop W 0 s) : ub_prop W n (fw_aux n s) := by
  suffices h : ∀ m, m ≤ n →
      ub_prop W m ((List.range m).foldl (fun t k => fw_stage n k t) s) by
    have := h n le_rfl
    exact this
  intro m
  induction m with
  | zero =>
    intro _
    exact h0
  | succ m ih =>
    intro hm
    rw [List.range_succ, List.foldl_append, List.foldl_cons, List.foldl_nil]
    exact ub_stage W n m _ hW (ih (by omega))

/-! ### Properties of successfully loaded graphs -/

theorem pyIdx_lt {n : Nat} {x : Int} {y : Nat} (h : pyIdx n x = some y) : y < n := by
  unfold pyIdx at h
  by_cases h1 : 0 ≤ x ∧ x < (n : Int)
  · rw [if_pos h1] at h
    cases h
    omega
  · rw [if_neg h1] at h
    by_cases h2 : -(n : Int) ≤ x ∧ x < 0
    · rw [if_pos h2] at h
      cases h
      omega
    · rw [if_neg h2] at h
      cases h

/-- Any property preserved by a single edge assignment survives the
whole edge loop (whether or not the loop succeeds). -/
theorem load_edges_invar (lines : List Line) (I : Graph → Prop)
    (hstep : ∀ (s : Graph) (u v w : Int) (ui vi : Nat),
      pyIdx s.n u = some ui → pyIdx s.n v = some vi → I s →
      I { s with
          L := updF s.L ui vi (w : WithTop Int)
          initial_adj := updF s.initial_adj ui vi (w : WithTop Int)
          P := if u ∈ s.P ui vi then s.P
               else updF s.P ui vi (s.P ui vi ++ [u]) }) :
    ∀ (r : Nat) (s : Graph) (idx : Nat), I s → I (load_edges lines s idx r).1 := by
  intro r
  induction r with
  | zero => intro s idx hs; exact hs
  | succ r ih =>
    intro s idx hs
    rw [load_edges_succ]
    by_cases hidx : idx < lines.length
    · rw [dif_pos hidx]
      cases hline : line_ints (lines.get ⟨idx, hidx⟩) with
      | none => exact hs
      | some parts =>
        match parts with
        | [] => exact hs
        | [u] => exact hs
        | [u, v] => exact hs
        | u :: v :: w :: rest =>
          dsimp only
          cases hu : pyIdx s.n u with
          | none => exact hs
          | some ui =>
            cases hv : pyIdx s.n v with
            | none => exact hs
            | some vi => exact ih _ (idx + 1) (hstep s u v w ui vi hu hv hs)
    · rw [dif_neg hidx]
      exact ih s (idx + 1) hs


theorem load_edges_result_props (lines : List Line) (I : Graph → Prop)
    (hstep : ∀ (s : Graph) (u v w : Int) (ui vi : Nat),
      pyIdx s.n u = some ui → pyIdx s.n v = some vi → I s →
      I { s with
          L := updF s.L ui vi (w : WithTop Int)
          initial_adj := updF s.initial_adj ui vi (w : WithTop Int)
          P := if u ∈ s.P ui vi then s.P
               else updF s.P ui vi (s.P ui vi ++ [u]) })
    (r idx : Nat) (s2 s0 : Graph) (b : Bool)
    (h : load_edges lines s2 idx r = (s0, b)) (hbase : I s2) : I s0 := by
  have hres := load_edges_invar lines I hstep r s2 idx hbase
  rw [h] at hres
  exact hres

/-- The invariant carried through the edge loop for the basic loaded
properties, for a vertex count `nv`. -/
def basic_inv (nv : Int) (s : Graph) : Prop :=
  s.num_vertices = nv ∧ s.L = s.initial_adj ∧
    (∀ i j, s.L i j ≠ ⊤ → i < nv.toNat ∧ j < nv.toNat) ∧
    (∀ i, i < nv.toNat → s.L i i ≠ ⊤) ∧
    (∀ i j, i ≠ j → (s.P i j ≠ [] ↔ s.L i j ≠ ⊤))

theorem basic_inv_step (nv : Int) (s : Graph) (u v w : Int) (ui vi : Nat)
    (hu : pyIdx s.n u = some ui) (hv : pyIdx s.n v = some vi) (hs : basic_inv nv s) :
    basic_inv nv { s with
      L := updF s.L ui vi (w : WithTop Int)
      initial_adj := updF s.initial_adj ui vi (w : WithTop Int)
      P := if u ∈ s.P ui vi then s.P
           else updF s.P ui vi (s.P ui vi ++ [u]) } := by
  obtain ⟨hnv, hLA, hbnd, hdiag, hP⟩ := hs
  have hsn : s.n = nv.toNat := by rw [Graph.n, hnv]
  have huin : ui < nv.toNat := hsn ▸ pyIdx_lt hu
  have hvin : vi < nv.toNat := hsn ▸ pyIdx_lt hv
  refine ⟨hnv, ?_, ?_, ?_, ?_⟩
  · show updF s.L ui vi _ = updF s.initial_adj ui vi _
    rw [hLA]
  · intro i j hne
    dsimp only at hne
    by_cases hij : i = ui ∧ j = vi
    · exact ⟨hij.1 ▸ huin, hij.2 ▸ hvin⟩
    · rw [updF_of_ne _ _ hij] at hne
      exact hbnd i j hne
  · intro i hi
    show updF s.L ui vi _ i i ≠ ⊤
    by_cases hij : i = ui ∧ i = vi
    · obtain ⟨h1, h2⟩ := hij
      subst h1
      subst h2
      rw [updF_self]
      exact WithTop.coe_ne_top
    · rw [updF_of_ne _ _ hij]
      exact hdiag i hi
  · intro i j hne
    show (if u ∈ s.P ui vi then s.P
          else updF s.P ui vi (s.P ui vi ++ [u])) i j ≠ [] ↔ updF s.L ui vi _ i j ≠ ⊤
    by_cases hij : i = ui ∧ j = vi
    · rw [show updF s.L ui vi ((w : WithTop Int)) i j = (w : WithTop Int) by
        simp [updF, hij.1, hij.2]]
      refine iff_of_true ?_ WithTop.coe_ne_top
      by_cases hu2 : u ∈ s.P ui vi
      · rw [if_pos hu2, hij.1, hij.2]
        intro hemp
        rw [hemp] at hu2
        simp at hu2
      · rw [if_neg hu2, hij.1, hij.2, updF_self]
        simp
    · rw [updF_of_ne _ _ hij]
      have hPij : (if u ∈ s.P ui vi then s.P
          else updF s.P ui vi (s.P ui vi ++ [u])) i j = s.P i j := by
        by_cases hu2 : u ∈ s.P ui vi
        · rw [if_pos hu2]
        · rw [if_neg hu2, updF_of_ne _ _ hij]
      rw [hPij]
      exact hP i j hne

/-- Facts available about the state of any graph `load_from_file`
reports as successfully loaded: `L` starts equal to `initial_adj`,
finite entries live in `[0,n)²`, the diagonal is finite, and (off the
diagonal) a predecessor list is non-empty exactly when the distance is
finite. -/
theorem load_success_basic (s_pre : Graph) (f : Option (List Line)) (s0 : Graph)
    (h : load_from_file s_pre f = (s0, true)) :
    s0.L = s0.initial_adj ∧
    (∀ i j, s0.L i j ≠ ⊤ → i < s0.n ∧ j < s0.n) ∧
    (∀ i, i < s0.n → s0.L i i ≠ ⊤) ∧
    (∀ i j, i ≠ j → (s0.P i j ≠ [] ↔ s0.L i j ≠ ⊤)) := by
  cases f with
  | none =>
    exfalso
    have hsnd := congrArg Prod.snd h
    simp [load_from_file] at hsnd
  | some raw =>
    rw [load_from_file] at h
    cases hfil : raw.filter (fun l => decide (l ≠ [])) with
    | nil =>
      exfalso
      rw [hfil] at h
      have hsnd := congrArg Prod.snd h
      simp at hsnd
    | cons l0 rest =>
      rw [hfil] at h
      dsimp only at h
      cases hpy0 : pyInt l0 with
      | none =>
        exfalso
        rw [hpy0] at h
        have hsnd := congrArg Prod.snd h
        simp at hsnd
      | some nv =>
        rw [hpy0] at h
        dsimp only at h
        cases rest with
        | nil =>
          exfalso
          have hsnd := congrArg Prod.snd h
          simp at hsnd
        | cons l1 rest2 =>
          dsimp only at h
          cases hpy1 : pyInt l1 with
          | none =>
            exfalso
            rw [hpy1] at h
            have hsnd := congrArg Prod.snd h
            simp at hsnd
          | some m =>
            rw [hpy1] at h
            dsimp only at h
            have hI : basic_inv nv s0 := by
              refine load_edges_result_props _ (basic_inv nv)
                (fun s u v w ui vi hu hv hs => basic_inv_step nv s u v w ui vi hu hv hs)
                m.toNat 2 _ s0 true h ?_
              refine ⟨rfl, rfl, ?_, ?_, ?_⟩
              · intro i j hne
                by_cases hc : i = j ∧ i < nv.toNat
                · exact ⟨hc.2, hc.1 ▸ hc.2⟩
                · exfalso
                  apply hne
                  show init_L _ i j = ⊤
                  rw [init_L]
                  exact if_neg hc
              · intro i hi
                show init_L _ i i ≠ ⊤
                rw [init_L]
                rw [if_pos ⟨rfl, hi⟩]
                simp
              · intro i j hne
                refine iff_of_false (by simp) ?_
                intro hfin
                apply hfin
                show init_L _ i j = ⊤
                rw [init_L]
                exact if_neg (fun hc => hne hc.1)
            obtain ⟨hnv, hLA, hbnd, hdiag, hP⟩ := hI
            have hsn : s0.n = nv.toNat := by rw [Graph.n, hnv]
            exact ⟨hLA, fun i j hne => hsn ▸ hbnd i j hne,
              fun i hi => hdiag i (hsn ▸ hi), hP⟩

/-! ### Claim C2 -/

theorem has_negative_cycle_iff (s : Graph) :
    has_negative_cycle s = true ↔ ∃ i, i < s.n ∧ s.L i i < 0 := by
  simp [has_negative_cycle, List.any_eq_true, List.mem_range]

/-- A directed cycle of negative total weight in the weighted graph
`W`: a closed walk visiting no vertex twice (except for returning to
its base point). -/
def neg_cycle (W : Nat → Nat → WithTop Int) : Prop :=
  ∃ (v : Nat) (ms : List Nat), is_walk W (v :: ms ++ [v]) ∧ (v :: ms).Nodup ∧
    walk_cost W (v :: ms ++ [v]) < 0

theorem fw_neg_iff (s_pre : Graph) (f : Option (List Line)) (s0 : Graph)
    (h : load_from_file s_pre f = (s0, true)) :
    (has_negative_cycle (floyd_warshall s0) = true ↔
      ∃ i, i < (floyd_warshall s0).n ∧ (floyd_warshall s0).L i i < 0) ∧
    (has_negative_cycle (floyd_warshall s0) = true ↔ neg_cycle s0.initial_adj) := by
  obtain ⟨hLA, hbnd, hdiag, -⟩ := load_success_basic s_pre f s0 h
  have hW : ∀ a b, s0.initial_adj a b ≠ ⊤ → a < s0.n ∧ b < s0.n := by
    intro a b hab
    refine hbnd a b ?_
    rw [hLA]
    exact hab
  have hfwn : (floyd_warshall s0).n = s0.n := by
    rw [Graph.n, Graph.n, show (floyd_warshall s0).num_vertices = s0.num_vertices
      from (fw_aux_fields s0.n s0).1]
  refine ⟨has_negative_cycle_iff _, ?_⟩
  rw [has_negative_cycle_iff]
  constructor
  · rintro ⟨i, hi, hneg⟩
    have hsound : sound_L s0.initial_adj (floyd_warshall s0) := by
      refine sound_fw _ s0.n s0 ?_
      intro a b hab
      refine ⟨[], ⟨?_, trivial⟩, ?_⟩
      · rw [← hLA]
        exact hab
      · show s0.initial_adj a b + walk_cost s0.initial_adj [b] = s0.L a b
        show s0.initial_adj a b + 0 = s0.L a b
        rw [add_zero, hLA]
    obtain ⟨ms, hw, hc⟩ := hsound i i hneg.ne_top
    obtain ⟨w, ns, hw1, hw2, hw3, -⟩ :=
      neg_closed_to_simple s0.initial_adj (i :: ms ++ [i]).length i ms le_rfl hw
        (by rw [hc]; exact hneg)
    exact ⟨w, ns, hw1, hw2, hw3⟩
  · rintro ⟨v, ms, hwalk, hnd, hneg⟩
    have hub : ub_prop s0.initial_adj s0.n (floyd_warshall s0) := by
      refine ub_fw _ s0.n s0 hW (ub_zero _ s0 ?_)
      intro i j
      rw [hLA]
    have hlen2 : 2 ≤ (v :: ms ++ [v]).length := by simp
    have hall := walk_all_lt hW (v :: ms ++ [v]) hwalk hlen2
    have hvn : v < s0.n := hall v (by simp)
    obtain ⟨hvnotm, hndms⟩ := List.nodup_cons.1 hnd
    have hubw : ub_walk s0.initial_adj s0.n v v (v :: ms ++ [v]) := by
      refine ⟨ms, rfl, hwalk, hndms, hvnotm, hvnotm, ?_⟩
      intro x hx
      exact hall x (by simp [hx])
    have hle : (floyd_warshall s0).L v v ≤ walk_cost s0.initial_adj (v :: ms ++ [v]) :=
      hub v v _ hubw
    exact ⟨v, hfwn ▸ hvn, lt_of_le_of_lt hle hneg⟩

/-- C2.  After the closure of a successfully loaded graph,
`has_negative_cycle()` is true iff some `L[i][i]` is negative, and
this holds iff the input graph (the loaded adjacency) contains a
directed cycle of negative total weight. -/
theorem C2_negative_cycle_detection (s_pre : Graph) (f : Option (List Line)) (s0 : Graph)
    (h : load_from_file s_pre f = (s0, true)) :
    (has_negative_cycle (floyd_warshall s0) = true ↔
      ∃ i, i < (floyd_warshall s0).n ∧ (floyd_warshall s0).L i i < 0) ∧
    (has_negative_cycle (floyd_warshall s0) = true ↔ neg_cycle s0.initial_adj) :=
  fw_neg_iff s_pre f s0 h

/-- Witness for `C2_negative_cycle_detection` at Example 3. -/
theorem C2_witness :
    (has_negative_cycle (floyd_warshall g_negcyc) = true ↔
      ∃ i, i < (floyd_warshall g_negcyc).n ∧ (floyd_warshall g_negcyc).L i i < 0) ∧
    (has_negative_cycle (floyd_warshall g_negcyc) = true ↔
      neg_cycle g_negcyc.initial_adj) :=
  C2_negative_cycle_detection initial_graph (some file_negcyc) g_negcyc
    (Prod.ext rfl (by decide))

/-! ### Claim C4 -/

/-- When the detector reports no negative cycle, every closed walk in
the loaded graph has non-negative cost. -/
theorem no_neg_closed (s_pre : Graph) (f : Option (List Line)) (s0 : Graph)
    (h : load_from_file s_pre f = (s0, true))
    (hnc : has_negative_cycle (floyd_warshall s0) = false) :
    ∀ (v : Nat) (ms : List Nat), is_walk s0.initial_adj (v :: ms ++ [v]) →
      0 ≤ walk_cost s0.initial_adj (v :: ms ++ [v]) := by
  intro v ms hwalk
  by_contra hlt
  push_neg at hlt
  obtain ⟨w, ns, hw1, hw2, hw3, -⟩ :=
    neg_closed_to_simple s0.initial_adj (v :: ms ++ [v]).length v ms le_rfl hwalk hlt
  have : has_negative_cycle (floyd_warshall s0) = true :=
    (fw_neg_iff s_pre f s0 h).2.2 ⟨w, ns, hw1, hw2, hw3⟩
  rw [hnc] at this
  cases this

/-- Reduction of an arbitrary walk to one whose interior is
duplicate-free and avoids the endpoints, without increasing the cost,
provided no closed walk has negative cost. -/
theorem walk_reduce (W : Nat → Nat → WithTop Int)
    (hnn : ∀ (v : Nat) (ms : List Nat), is_walk W (v :: ms ++ [v]) →
      0 ≤ walk_cost W (v :: ms ++ [v])) :
    ∀ (fuel : Nat) (i j : Nat) (ms : List Nat), (i :: ms ++ [j]).length ≤ fuel →
      is_walk W (i :: ms ++ [j]) →
      ∃ ns, is_walk W (i :: ns ++ [j]) ∧ ns.Nodup ∧ i ∉ ns ∧ j ∉ ns ∧
        (∀ x ∈ ns, x ∈ ms) ∧
        walk_cost W (i :: ns ++ [j]) ≤ walk_cost W (i :: ms ++ [j]) := by
  intro fuel
  induction fuel with
  | zero =>
    intro i j ms hlen
    exfalso
    simp at hlen
  | succ fuel ih =>
    intro i j ms hlen hwalk
    by_cases hnd : ms.Nodup
    · by_cases hi : i ∈ ms
      · -- cut the closed prefix walk at i
        obtain ⟨a, b, hab⟩ := List.append_of_mem hi
        have hvs : i :: ms ++ [j] = (i :: a) ++ i :: (b ++ [j]) := by
          rw [hab]
          simp
        obtain ⟨hw1, hw2⟩ := is_walk_split (i :: a) i (b ++ [j]) (by rw [← hvs]; exact hwalk)
        have hcost : walk_cost W (i :: ms ++ [j]) =
            walk_cost W (i :: a ++ [i]) + walk_cost W (i :: (b ++ [j])) := by
          rw [hvs, walk_cost_split W (i :: a) i (b ++ [j])]
        have hge : 0 ≤ walk_cost W (i :: a ++ [i]) := hnn i a hw1
        have hlen2 : (i :: b ++ [j]).length ≤ fuel := by
          have : (i :: ms ++ [j]).length = a.length + b.length + 3 := by
            rw [hab]; simp; omega
          simp at hlen this ⊢
          omega
        obtain ⟨ns, hn1, hn2, hn3, hn4, hn5, hn6⟩ := ih i j b hlen2 hw2
        refine ⟨ns, hn1, hn2, hn3, hn4, fun x hx => by
          rw [hab]
          have := hn5 x hx
          simp [this], ?_⟩
        calc walk_cost W (i :: ns ++ [j]) ≤ walk_cost W (i :: b ++ [j]) := hn6
          _ = walk_cost W (i :: (b ++ [j])) := rfl
          _ ≤ walk_cost W (i :: a ++ [i]) + walk_cost W (i :: (b ++ [j])) :=
              le_add_of_nonneg_left hge
          _ = walk_cost W (i :: ms ++ [j]) := hcost.symm
      · by_cases hj : j ∈ ms
        · -- cut at the first interior j and drop the closed suffix
          obtain ⟨a, b, hab⟩ := List.append_of_mem hj
          have hvs : i :: ms ++ [j] = (i :: a) ++ j :: (b ++ [j]) := by
            rw [hab]
            simp
          obtain ⟨hw1, hw2⟩ := is_walk_split (i :: a) j (b ++ [j]) (by rw [← hvs]; exact hwalk)
          have hcost : walk_cost W (i :: ms ++ [j]) =
              walk_cost W (i :: a ++ [j]) + walk_cost W (j :: (b ++ [j])) := by
            rw [hvs, walk_cost_split W (i :: a) j (b ++ [j])]
          have hge : 0 ≤ walk_cost W (j :: b ++ [j]) := hnn j b hw2
          have hlen2 : (i :: a ++ [j]).length ≤ fuel := by
            have : (i :: ms ++ [j]).length = a.length + b.length + 3 := by
              rw [hab]; simp; omega
            simp at hlen this ⊢
            omega
          obtain ⟨ns, hn1, hn2, hn3, hn4, hn5, hn6⟩ := ih i j a hlen2 hw1
          refine ⟨ns, hn1, hn2, hn3, hn4, fun x hx => by
            rw [hab]
            have := hn5 x hx
            simp [this], ?_⟩
          calc walk_cost W (i :: ns ++ [j]) ≤ walk_cost W (i :: a ++ [j]) := hn6
            _ ≤ walk_cost W (i :: a ++ [j]) + walk_cost W (j :: (b ++ [j])) :=
                le_add_of_nonneg_right hge
            _ = walk_cost W (i :: ms ++ [j]) := hcost.symm
        · exact ⟨ms, hwalk, hnd, hi, hj, fun x hx => hx, le_refl _⟩
    · -- cut a duplicated interior vertex
      obtain ⟨y, xs, ys, zs, hdec⟩ := exists_dup_split hnd
      have hvs : i :: ms ++ [j] = (i :: xs) ++ y :: (ys ++ y :: (zs ++ [j])) := by
        rw [hdec]
        simp
      obtain ⟨hw1, hwrest⟩ :=
        is_walk_split (i :: xs) y (ys ++ y :: (zs ++ [j])) (by rw [← hvs]; exact hwalk)
      obtain ⟨hwB, hwC⟩ := is_walk_split (y :: ys) y (zs ++ [j])
        (show is_walk W ((y :: ys) ++ y :: (zs ++ [j])) from hwrest)
      have hcost : walk_cost W (i :: ms ++ [j]) =
          walk_cost W (i :: xs ++ [y]) +
            (walk_cost W (y :: ys ++ [y]) + walk_cost W (y :: (zs ++ [j]))) := by
        rw [hvs, walk_cost_split W (i :: xs) y (ys ++ y :: (zs ++ [j]))]
        rw [show walk_cost W (y :: (ys ++ y :: (zs ++ [j]))) =
            walk_cost W ((y :: ys) ++ y :: (zs ++ [j])) from rfl]
        rw [walk_cost_split W (y :: ys) y (zs ++ [j])]
      have hgeB : 0 ≤ walk_cost W (y :: ys ++ [y]) := hnn y ys hwB
      have hwred : is_walk W (i :: (xs ++ y :: zs) ++ [j]) := by
        have := is_walk_join (i :: xs) y (zs ++ [j]) hw1 hwC
        rw [show (i :: xs) ++ y :: (zs ++ [j]) = i :: (xs ++ y :: zs) ++ [j] by simp] at this
        exact this
      have hcred : walk_cost W (i :: (xs ++ y :: zs) ++ [j]) =
          walk_cost W (i :: xs ++ [y]) + walk_cost W (y :: (zs ++ [j])) := by
        have := walk_cost_split W (i :: xs) y (zs ++ [j])
        rw [show (i :: xs) ++ y :: (zs ++ [j]) = i :: (xs ++ y :: zs) ++ [j] by simp] at this
        exact this
      have hlen2 : (i :: (xs ++ y :: zs) ++ [j]).length ≤ fuel := by
        have : (i :: ms ++ [j]).length = xs.length + ys.length + zs.length + 4 := by
          rw [hdec]; simp; omega
        simp at hlen this ⊢
        omega
      obtain ⟨ns, hn1, hn2, hn3, hn4, hn5, hn6⟩ := ih i j (xs ++ y :: zs) hlen2 hwred
      refine ⟨ns, hn1, hn2, hn3, hn4, fun x hx => by
        rw [hdec]
        have hx2 := hn5 x hx
        rcases List.mem_append.1 hx2 with h2 | h2
        · simp [h2]
        · rcases List.mem_cons.1 h2 with h3 | h3
          · subst h3
            simp
          · simp [h3], ?_⟩
      calc walk_cost W (i :: ns ++ [j]) ≤ walk_cost W (i :: (xs ++ y :: zs) ++ [j]) := hn6
        _ = walk_cost W (i :: xs ++ [y]) + walk_cost W (y :: (zs ++ [j])) := hcred
        _ ≤ walk_cost W (i :: xs ++ [y]) +
              (walk_cost W (y :: ys ++ [y]) + walk_cost W (y :: (zs ++ [j]))) := by
            refine add_le_add_left ?_ _
            exact le_add_of_nonneg_left hgeB
        _ = walk_cost W (i :: ms ++ [j]) := hcost.symm

/-- Soundness instantiated for a loaded-and-closed graph. -/
theorem sound_loaded (s_pre : Graph) (f : Option (List Line)) (s0 : Graph)
    (h : load_from_file s_pre f = (s0, true)) :
    sound_L s0.initial_adj (floyd_warshall s0) := by
  obtain ⟨hLA, -, -, -⟩ := load_success_basic s_pre f s0 h
  refine sound_fw _ s0.n s0 ?_
  intro a b hab
  refine ⟨[], ⟨?_, trivial⟩, ?_⟩
  · rw [← hLA]
    exact hab
  · show s0.initial_adj a b + walk_cost s0.initial_adj [b] = s0.L a b
    show s0.initial_adj a b + 0 = s0.L a b
    rw [add_zero, hLA]

/-- The walk upper bound instantiated for a loaded-and-closed graph. -/
theorem ub_loaded (s_pre : Graph) (f : Option (List Line)) (s0 : Graph)
    (h : load_from_file s_pre f = (s0, true)) :
    ub_prop s0.initial_adj s0.n (floyd_warshall s0) := by
  obtain ⟨hLA, hbnd, -, -⟩ := load_success_basic s_pre f s0 h
  refine ub_fw _ s0.n s0 (fun a b hab => hbnd a b (by rw [hLA]; exact hab)) (ub_zero _ s0 ?_)
  intro i j
  rw [hLA]

/-- The triangle inequality at the closure's fixed point, for graphs
on which the detector reports no negative cycle. -/
theorem triangle_closure (s_pre : Graph) (f : Option (List Line)) (s0 : Graph)
    (h : load_from_file s_pre f = (s0, true))
    (hnc : has_negative_cycle (floyd_warshall s0) = false)
    (i j k : Nat) (hi : i < s0.n) (hj : j < s0.n) (hk : k < s0.n)
    (hik : (floyd_warshall s0).L i k ≠ ⊤) (hkj : (floyd_warshall s0).L k j ≠ ⊤) :
    (floyd_warshall s0).L i j ≤ (floyd_warshall s0).L i k + (floyd_warshall s0).L k j := by
  obtain ⟨hLA, hbnd, -, -⟩ := load_success_basic s_pre f s0 h
  have hW : ∀ a b, s0.initial_adj a b ≠ ⊤ → a < s0.n ∧ b < s0.n :=
    fun a b hab => hbnd a b (by rw [hLA]; exact hab)
  have hnn := no_neg_closed s_pre f s0 h hnc
  obtain ⟨ms1, hw1, hc1⟩ := sound_loaded s_pre f s0 h i k hik
  obtain ⟨ms2, hw2, hc2⟩ := sound_loaded s_pre f s0 h k j hkj
  obtain ⟨hwc, hcc⟩ := walk_concat hw1 hw2
  obtain ⟨ns, hn1, hn2, hn3, hn4, hn5, hn6⟩ :=
    walk_reduce s0.initial_adj hnn (i :: (ms1 ++ k :: ms2) ++ [j]).length i j
      (ms1 ++ k :: ms2) le_rfl hwc
  have hall := walk_all_lt hW (i :: (ms1 ++ k :: ms2) ++ [j]) hwc (by simp; omega)
  have hub : ub_walk s0.initial_adj s0.n i j (i :: ns ++ [j]) :=
    ⟨ns, rfl, hn1, hn2, hn3, hn4, fun x hx => hall x (by
      have hx2 := hn5 x hx
      simp only [List.cons_append, List.mem_cons, List.mem_append] at hx2 ⊢
      tauto)⟩
  calc (floyd_warshall s0).L i j
      ≤ walk_cost s0.initial_adj (i :: ns ++ [j]) := ub_loaded s_pre f s0 h i j _ hub
    _ ≤ walk_cost s0.initial_adj (i :: (ms1 ++ k :: ms2) ++ [j]) := hn6
    _ = walk_cost s0.initial_adj (i :: ms1 ++ [k]) +
          walk_cost s0.initial_adj (k :: ms2 ++ [j]) := hcc
    _ = (floyd_warshall s0).L i k + (floyd_warshall s0).L k j := by rw [hc1, hc2]

/-- C4, amended: the triangle inequality at the closure's fixed point,
for graphs on which the detector reports no negative cycle. -/
theorem C4_triangle_inequality (s_pre : Graph) (f : Option (List Line)) (s0 : Graph)
    (h : load_from_file s_pre f = (s0, true))
    (hnc : has_negative_cycle (floyd_warshall s0) = false)
    (i j k : Nat) (hi : i < s0.n) (hj : j < s0.n) (hk : k < s0.n)
    (hik : (floyd_warshall s0).L i k ≠ ⊤) (hkj : (floyd_warshall s0).L k j ≠ ⊤) :
    (floyd_warshall s0).L i j ≤ (floyd_warshall s0).L i k + (floyd_warshall s0).L k j :=
  triangle_closure s_pre f s0 h hnc i j k hi hj hk hik hkj

/-- Witness for `C4_triangle_inequality` on the closed Example 2. -/
theorem C4_witness :
    (floyd_warshall g_tie).L 0 2 ≤ (floyd_warshall g_tie).L 0 1 + (floyd_warshall g_tie).L 1 2 :=
  C4_triangle_inequality initial_graph (some file_tie) g_tie
    (Prod.ext rfl (by decide)) (by decide) 0 2 1
    (by decide) (by decide) (by decide) (by decide) (by decide)

/-- C4, counterexample.  On the closed Example 3 (which has a negative
cycle) the triangle inequality fails at `i = 0`, `k = 0`, `j = 1`:
both `L[0][0] = -1` and `L[0][1] = 0` are finite, yet
`L[0][1] = 0 > L[0][0] + L[0][1] = -1`. -/
theorem C4_counterexample :
    f_negcyc.L 0 0 ≠ ⊤ ∧ f_negcyc.L 0 1 ≠ ⊤ ∧
      ¬ (f_negcyc.L 0 1 ≤ f_negcyc.L 0 0 + f_negcyc.L 0 1) := by
  decide

/-! ### Claim C9 -/

/-- The `(k, i, j)` triples of `floyd_warshall`'s triple loop, in
execution order. -/
def fw_steps (n : Nat) : List (Nat × Nat × Nat) :=
  (List.range n).flatMap (fun k =>
    (List.range n).flatMap (fun i =>
      (List.range n).map (fun j => (k, i, j))))

/-- The loop body as a function of one step triple. -/
def relax3 (s : Graph) (t : Nat × Nat × Nat) : Graph := relax s t.1 t.2.1 t.2.2

theorem foldl_over_bind {α β : Type} (f : Graph → β → Graph) (g : α → List β)
    (l : List α) : ∀ s, (l.flatMap g).foldl f s = l.foldl (fun t a => (g a).foldl f t) s := by
  induction l with
  | nil => intro s; rfl
  | cons a rest ih =>
    intro s
    rw [List.flatMap_cons, List.foldl_append, ih]
    rfl

/-- The nested loops of `floyd_warshall` are the same computation as
folding the body over the flat step list. -/
theorem fw_aux_eq_steps (n : Nat) (s : Graph) :
    fw_aux n s = (fw_steps n).foldl relax3 s := by
  unfold fw_aux fw_steps
  rw [foldl_over_bind]
  have hstage : ∀ (k : Nat) (t : Graph),
      fw_stage n k t =
        ((List.range n).flatMap fun i => (List.range n).map fun j => (k, i, j)).foldl relax3 t := by
    intro k t
    rw [foldl_over_bind]
    unfold fw_stage
    have hrow : ∀ (i : Nat) (t2 : Graph),
        relax_row n k i t2 = ((List.range n).map fun j => (k, i, j)).foldl relax3 t2 := by
      intro i t2
      rw [List.foldl_map]
      rfl
    refine List.foldl_ext _ _ _ ?_
    intro t2 i _
    exact hrow i t2
  refine List.foldl_ext _ _ _ ?_
  intro t k _
  exact hstage k t

/-- In `WithTop ℤ`, a candidate through a non-negative diagonal entry
cannot strictly beat the entry it extends. -/
theorem left_neg_of_add_lt {x y : WithTop Int} (h : x + y < y) : x < 0 := by
  by_contra hge
  push_neg at hge
  exact absurd h (not_lt.2 (le_add_of_nonneg_left hge))

theorem right_neg_of_add_lt {x y : WithTop Int} (h : x + y < x) : y < 0 := by
  by_contra hge
  push_neg at hge
  exact absurd h (not_lt.2 (le_add_of_nonneg_right hge))

/-- One relaxation preserves the off-diagonal invariant
"`P[i][j]` non-empty iff `L[i][j]` finite", provided every finite `L`
entry is a walk cost and no closed walk has negative cost. -/
theorem P_inv_relax (W : Nat → Nat → WithTop Int) (s : Graph) (k i j : Nat)
    (hsound : sound_L W s)
    (hnn : ∀ (v : Nat) (ms : List Nat), is_walk W (v :: ms ++ [v]) →
      0 ≤ walk_cost W (v :: ms ++ [v]))
    (hP : ∀ a b, a ≠ b → (s.P a b ≠ [] ↔ s.L a b ≠ ⊤)) :
    ∀ a b, a ≠ b → ((relax s k i j).P a b ≠ [] ↔ (relax s k i j).L a b ≠ ⊤) := by
  have hdiag : ∀ v, ¬ (s.L v v < 0) := by
    intro v hv
    obtain ⟨ms, hw, hc⟩ := hsound v v hv.ne_top
    have := hnn v ms hw
    rw [hc] at this
    exact absurd hv (not_lt.2 this)
  intro a b hab
  rw [(relax_eq_amended s k i j).1]
  unfold amended_step
  split
  next hg =>
    dsimp only
    split
    next hlt =>
      by_cases hcell : a = i ∧ b = j
      · obtain ⟨h1, h2⟩ := hcell
        subst h1
        subst h2
        have hka : k ≠ a := by
          rintro rfl
          exact hdiag k (left_neg_of_add_lt (lt_of_lt_of_le hlt (le_refl _)))
        have hkb : k ≠ b := by
          rintro rfl
          exact hdiag k (right_neg_of_add_lt hlt)
        show updF s.P a b _ a b ≠ [] ↔ updF s.L a b _ a b ≠ ⊤
        rw [updF_self, updF_self, if_neg hka]
        refine iff_of_true ?_ (WithTop.add_ne_top.2 ⟨hg.1, hg.2⟩)
        rw [Ne, add_unique_eq_nil]
        rintro ⟨-, hsrc⟩
        exact ((hP k b hkb).2 hg.2) hsrc
      · show updF s.P i j _ a b ≠ [] ↔ updF s.L i j _ a b ≠ ⊤
        rw [updF_of_ne _ _ hcell, updF_of_ne _ _ hcell]
        exact hP a b hab
    next hlt =>
      split
      next heq =>
        by_cases hcell : a = i ∧ b = j
        · obtain ⟨h1, h2⟩ := hcell
          subst h1
          subst h2
          show updF s.P a b _ a b ≠ [] ↔ s.L a b ≠ ⊤
          rw [updF_self]
          have hfin : s.L a b ≠ ⊤ := by
            rw [← heq]
            exact WithTop.add_ne_top.2 ⟨hg.1, hg.2⟩
          refine iff_of_true ?_ hfin
          rw [Ne, add_unique_eq_nil]
          rintro ⟨htgt, -⟩
          exact ((hP a b hab).2 hfin) htgt
        · show updF s.P i j _ a b ≠ [] ↔ s.L a b ≠ ⊤
          rw [updF_of_ne _ _ hcell]
          exact hP a b hab
      next heq => exact hP a b hab
  next hg => exact hP a b hab

/-- C9, amended.  The claimed invariant fails on the diagonal (a
self-loop edge populates `P[i][i]` at load time, and negative cycles
can empty an off-diagonal cell through the `k = i` aliasing), but off
the diagonal, and on graphs whose closure reports no negative cycle,
it holds after construction and after every single relaxation step:
`P[i][j]` is non-empty iff `L[i][j]` is finite.  The first conjunct
identifies `floyd_warshall` with the flat sequence of its `(k,i,j)`
relaxation steps; the last quantifies over every prefix of that
sequence. -/
theorem C9_pred_invariant (s_pre : Graph) (f : Option (List Line)) (s0 : Graph)
    (h : load_from_file s_pre f = (s0, true))
    (hnc : has_negative_cycle (floyd_warshall s0) = false) :
    floyd_warshall s0 = (fw_steps s0.n).foldl relax3 s0 ∧
    (∀ i j, i ≠ j → (s0.P i j ≠ [] ↔ s0.L i j ≠ ⊤)) ∧
    (∀ t i j, i ≠ j →
      ((((fw_steps s0.n).take t).foldl relax3 s0).P i j ≠ [] ↔
        (((fw_steps s0.n).take t).foldl relax3 s0).L i j ≠ ⊤)) := by
  obtain ⟨hLA, hbnd, hdiag0, hP0⟩ := load_success_basic s_pre f s0 h
  have hnn := no_neg_closed s_pre f s0 h hnc
  have hbase_sound : sound_L s0.initial_adj s0 := by
    intro a b hab
    refine ⟨[], ⟨?_, trivial⟩, ?_⟩
    · rw [← hLA]
      exact hab
    · show s0.initial_adj a b + walk_cost s0.initial_adj [b] = s0.L a b
      show s0.initial_adj a b + 0 = s0.L a b
      rw [add_zero, hLA]
  refine ⟨fw_aux_eq_steps s0.n s0, hP0, ?_⟩
  intro t
  have hinv := foldl_invar relax3
    (fun s => sound_L s0.initial_adj s ∧
      ∀ a b, a ≠ b → (s.P a b ≠ [] ↔ s.L a b ≠ ⊤))
    ((fw_steps s0.n).take t)
    (fun s a hs => ⟨sound_relax _ s a.1 a.2.1 a.2.2 hs.1,
      P_inv_relax _ s a.1 a.2.1 a.2.2 hs.1 hnn hs.2⟩)
    s0 ⟨hbase_sound, hP0⟩
  exact hinv.2

/-- Witness for `C9_pred_invariant` on the closed Example 2. -/
theorem C9_witness :
    floyd_warshall g_tie = (fw_steps g_tie.n).foldl relax3 g_tie ∧
    (∀ i j, i ≠ j → (g_tie.P i j ≠ [] ↔ g_tie.L i j ≠ ⊤)) ∧
    (∀ t i j, i ≠ j →
      ((((fw_steps g_tie.n).take t).foldl relax3 g_tie).P i j ≠ [] ↔
        (((fw_steps g_tie.n).take t).foldl relax3 g_tie).L i j ≠ ⊤)) :=
  C9_pred_invariant initial_graph (some file_tie) g_tie
    (Prod.ext rfl (by decide)) (by decide)

/-- C9, counterexample.  After loading the single self-loop edge
`(0,0,5)`, `P[0][0] = [0]` is non-empty while `i = j`: "`P[i][j]` is
non-empty iff `L[i][j]` is finite and `i ≠ j`" fails at `i = j = 0`. -/
theorem C9_counterexample :
    (load_from_file initial_graph (some file_selfloop)).1.P 0 0 = [0] ∧
    (load_from_file initial_graph (some file_selfloop)).1.L 0 0 = some 5 ∧
    ¬ ((load_from_file initial_graph (some file_selfloop)).1.P 0 0 ≠ [] ↔
        ((load_from_file initial_graph (some file_selfloop)).1.L 0 0 ≠ ⊤ ∧ (0 : Nat) ≠ 0)) := by
  refine ⟨by decide, by decide, ?_⟩
  intro hiff
  have h1 : (load_from_file initial_graph (some file_selfloop)).1.P 0 0 ≠ [] := by decide
  exact absurd (hiff.1 h1).2 (by simp)

/-! ### Claim C5

Idempotence of `floyd_warshall`.  The second run is the identity
exactly when the closure reached a genuine fixed point; with a
negative cycle it is not (counterexample below).  The proof for the
no-negative-cycle case goes through a pointwise description of one
`k`-stage and a full characterisation of the predecessor lists at
every stage boundary. -/

/-- `foldl_invar` with membership information about the step. -/
theorem foldl_invar_mem {α : Type} (f : Graph → α → Graph) (I : Graph → Prop) :
    ∀ (l : List α), (∀ t a, a ∈ l → I t → I (f t a)) → ∀ s, I s → I (l.foldl f s) := by
  intro l
  induction l with
  | nil => intro _ s hs; exact hs
  | cons a rest ih =>
    intro h s hs
    exact ih (fun t b hb ht => h t b (List.mem_cons_of_mem a hb) ht) (f s a)
      (h s a (List.mem_cons_self a rest) hs)

/-- Invariants preserved by the relaxations of one fixed stage `k`
survive that stage. -/
theorem relax_invar_stage_k (I : Graph → Prop) (n k : Nat)
    (h : ∀ t i j, I t → I (relax t k i j)) :
    ∀ s, I s → I (fw_stage n k s) := by
  intro s hs
  refine foldl_invar _ I _ (fun t2 i ht2 => ?_) s hs
  exact foldl_invar _ I _ (fun t3 j ht3 => h t3 i j ht3) t2 ht2

/-- Stage-indexed soundness: every finite entry of `L` is the cost of
a walk whose interior vertices are all below `bd` (the intermediate
vertices processed so far). -/
def sound_bd (W : Nat → Nat → WithTop Int) (bd : Nat) (s : Graph) : Prop :=
  ∀ i j, s.L i j ≠ ⊤ → ∃ ms, is_walk W (i :: ms ++ [j]) ∧ (∀ x ∈ ms, x < bd) ∧
    walk_cost W (i :: ms ++ [j]) = s.L i j

theorem sound_bd_mono (W : Nat → Nat → WithTop Int) {bd bd' : Nat} (h : bd ≤ bd')
    {s : Graph} (hs : sound_bd W bd s) : sound_bd W bd' s := by
  intro i j hne
  obtain ⟨ms, h1, h2, h3⟩ := hs i j hne
  exact ⟨ms, h1, fun x hx => lt_of_lt_of_le (h2 x hx) h, h3⟩

/-- A relaxation through an intermediate vertex `k < bd` preserves
stage-indexed soundness. -/
theorem sound_bd_relax (W : Nat → Nat → WithTop Int) (bd : Nat) (s : Graph)
    (k i j : Nat) (hk : k < bd) (h : sound_bd W bd s) :
    sound_bd W bd (relax s k i j) := by
  intro a b hne
  rcases relax_L_cases s k i j a b with hcase | ⟨ha, hb, hik, hkj, -, hv⟩
  · rw [hcase] at hne ⊢
    exact h a b hne
  · obtain ⟨ms1, hw1, hb1, hc1⟩ := h i k hik
    obtain ⟨ms2, hw2, hb2, hc2⟩ := h k j hkj
    obtain ⟨hw, hc⟩ := walk_concat hw1 hw2
    subst ha
    subst hb
    refine ⟨ms1 ++ k :: ms2, hw, ?_, by rw [hc, hc1, hc2, hv]⟩
    intro x hx
    rcases List.mem_append.1 hx with h1 | h1
    · exact hb1 x h1
    · rcases List.mem_cons.1 h1 with h2 | h2
      · exact h2 ▸ hk
      · exact hb2 x h2

/-- Stage `k` upgrades the soundness bound from `k` to `k + 1`. -/
theorem sound_bd_stage (W : Nat → Nat → WithTop Int) (n k : Nat) (s : Graph)
    (h : sound_bd W k s) : sound_bd W (k + 1) (fw_stage n k s) :=
  relax_invar_stage_k (sound_bd W (k + 1)) n k
    (fun t i j ht => sound_bd_relax W (k + 1) t k i j (Nat.lt_succ_self k) ht)
    s (sound_bd_mono W (Nat.le_succ k) h)

/-- The distance matrix is below the edge weights (the one-edge walk
is admissible at every stage). -/
theorem L_le_W (W : Nat → Nat → WithTop Int) (bd : Nat) (s : Graph)
    (hub : ub_prop W bd s) (i j : Nat) : s.L i j ≤ W i j := by
  by_cases hW : W i j = ⊤
  · rw [hW]
    exact le_top
  · have h1 : ub_walk W bd i j [i, j] :=
      ⟨[], rfl, ⟨hW, trivial⟩, List.nodup_nil, by simp, by simp, by simp⟩
    refine le_trans (hub i j [i, j] h1) ?_
    rw [walk_cost_cons_cons]
    show W i j + 0 ≤ W i j
    rw [add_zero]

/-- The one-edge extension bound: the distance to `j` is below the
distance to any processed vertex `q` plus the edge `q → j`. -/
theorem L_le_edge (W : Nat → Nat → WithTop Int) (bd : Nat) (s : Graph)
    (hub : ub_prop W bd s) (hsd : sound_bd W bd s)
    (hnn : ∀ (v : Nat) (ms : List Nat), is_walk W (v :: ms ++ [v]) →
      0 ≤ walk_cost W (v :: ms ++ [v]))
    (i q j : Nat) (hq : q < bd) (hWqj : W q j ≠ ⊤) (hLiq : s.L i q ≠ ⊤) :
    s.L i j ≤ s.L i q + W q j := by
  obtain ⟨ms, hw, hbd, hc⟩ := hsd i q hLiq
  have he : (i :: ms) ++ q :: [j] = i :: (ms ++ [q]) ++ [j] := by simp
  have hwe : is_walk W (i :: (ms ++ [q]) ++ [j]) := by
    rw [← he]
    exact is_walk_join (i :: ms) q [j] hw ⟨hWqj, trivial⟩
  have hce : walk_cost W (i :: (ms ++ [q]) ++ [j]) = s.L i q + W q j := by
    rw [← he, walk_cost_split W (i :: ms) q [j], hc]
    have : walk_cost W (q :: [j]) = W q j := by
      rw [walk_cost_cons_cons]
      show W q j + 0 = W q j
      rw [add_zero]
    rw [this]
  obtain ⟨ns, hn1, hn2, hn3, hn4, hn5, hn6⟩ :=
    walk_reduce W hnn (i :: (ms ++ [q]) ++ [j]).length i j (ms ++ [q]) le_rfl hwe
  have hub2 : ub_walk W bd i j (i :: ns ++ [j]) := by
    refine ⟨ns, rfl, hn1, hn2, hn3, hn4, fun x hx => ?_⟩
    rcases List.mem_append.1 (hn5 x hx) with h1 | h1
    · exact hbd x h1
    · have : x = q := by simpa using h1
      exact this ▸ hq
  calc s.L i j ≤ walk_cost W (i :: ns ++ [j]) := hub i j _ hub2
    _ ≤ walk_cost W (i :: (ms ++ [q]) ++ [j]) := hn6
    _ = s.L i q + W q j := hce

/-- Without negative closed walks, the diagonal never goes negative. -/
theorem diag_nonneg (W : Nat → Nat → WithTop Int) (bd : Nat) (s : Graph)
    (hsd : sound_bd W bd s)
    (hnn : ∀ (v : Nat) (ms : List Nat), is_walk W (v :: ms ++ [v]) →
      0 ≤ walk_cost W (v :: ms ++ [v])) :
    ∀ v, 0 ≤ s.L v v := by
  intro v
  by_contra hv
  push_neg at hv
  obtain ⟨ms, hw, -, hc⟩ := hsd v v (ne_top_of_lt hv)
  have := hnn v ms hw
  rw [hc] at this
  exact absurd hv (not_lt.2 this)

/-- Without negative closed walks, a finite round trip has
non-negative total cost. -/
theorem closed_pair_nonneg (W : Nat → Nat → WithTop Int) (bd : Nat) (s : Graph)
    (hsd : sound_bd W bd s)
    (hnn : ∀ (v : Nat) (ms : List Nat), is_walk W (v :: ms ++ [v]) →
      0 ≤ walk_cost W (v :: ms ++ [v])) :
    ∀ a b, s.L a b ≠ ⊤ → s.L b a ≠ ⊤ → 0 ≤ s.L a b + s.L b a := by
  intro a b hab hba
  obtain ⟨ms1, hw1, -, hc1⟩ := hsd a b hab
  obtain ⟨ms2, hw2, -, hc2⟩ := hsd b a hba
  obtain ⟨hw, hc⟩ := walk_concat hw1 hw2
  have := hnn a (ms1 ++ b :: ms2) hw
  rw [hc, hc1, hc2] at this
  exact this

/-- The predecessor list a `k`-stage leaves at cell `(i, j)`, written
with all reads taken in the stage-entry state `s`. -/
def stageP (s : Graph) (k i j : Nat) : List Int :=
  if s.L i k ≠ ⊤ ∧ s.L k j ≠ ⊤ then
    if s.L i k + s.L k j < s.L i j then
      (if k = i then [] else add_unique [] (s.P k j))
    else if s.L i k + s.L k j = s.L i j then add_unique (s.P i j) (s.P k j)
    else s.P i j
  else s.P i j

theorem stageP_guard_false {s : Graph} {k i j : Nat}
    (hg : ¬ (s.L i k ≠ ⊤ ∧ s.L k j ≠ ⊤)) : stageP s k i j = s.P i j := by
  unfold stageP
  rw [if_neg hg]

theorem stageP_strict {s : Graph} {k i j : Nat}
    (hg : s.L i k ≠ ⊤ ∧ s.L k j ≠ ⊤) (hlt : s.L i k + s.L k j < s.L i j) :
    stageP s k i j = (if k = i then [] else add_unique [] (s.P k j)) := by
  unfold stageP
  rw [if_pos hg, if_pos hlt]

theorem stageP_tie {s : Graph} {k i j : Nat}
    (hg : s.L i k ≠ ⊤ ∧ s.L k j ≠ ⊤) (hnlt : ¬ s.L i k + s.L k j < s.L i j)
    (heq : s.L i k + s.L k j = s.L i j) :
    stageP s k i j = add_unique (s.P i j) (s.P k j) := by
  unfold stageP
  rw [if_pos hg, if_neg hnlt, if_pos heq]

theorem stageP_slack {s : Graph} {k i j : Nat}
    (hg : s.L i k ≠ ⊤ ∧ s.L k j ≠ ⊤) (hnlt : ¬ s.L i k + s.L k j < s.L i j)
    (hne : s.L i k + s.L k j ≠ s.L i j) :
    stageP s k i j = s.P i j := by
  unfold stageP
  rw [if_pos hg, if_neg hnlt, if_neg hne]

/-- Row `k` is inert under its own stage's update formula. -/
theorem stageP_row_k {s : Graph} {k b : Nat} (hdiag : 0 ≤ s.L k k) :
    stageP s k k b = s.P k b := by
  unfold stageP
  by_cases hg : s.L k k ≠ ⊤ ∧ s.L k b ≠ ⊤
  · rw [if_pos hg]
    have hnlt : ¬ s.L k k + s.L k b < s.L k b := by
      intro hlt
      exact absurd (left_neg_of_add_lt hlt) (not_lt.2 hdiag)
    rw [if_neg hnlt]
    by_cases heq : s.L k k + s.L k b = s.L k b
    · rw [if_pos heq]
      exact add_unique_eq_self (fun x hx => hx)
    · rw [if_neg heq]
  · rw [if_neg hg]

/-- A single relaxation, evaluated when all five cells it reads agree
with a reference state `s`. -/
theorem relax_cell_of_reads (s t : Graph) (k i j : Nat)
    (hik : t.L i k = s.L i k) (hkj : t.L k j = s.L k j) (hij : t.L i j = s.L i j)
    (hPkj : t.P k j = s.P k j) (hPij : t.P i j = s.P i j) :
    (relax t k i j).L i j = min (s.L i j) (s.L i k + s.L k j) ∧
    (relax t k i j).P i j = stageP s k i j := by
  rw [(relax_eq_amended t k i j).1]
  unfold amended_step stageP
  rw [hik, hkj, hij, hPkj, hPij]
  by_cases hg : s.L i k ≠ ⊤ ∧ s.L k j ≠ ⊤
  · rw [if_pos hg, if_pos hg]
    dsimp only
    by_cases hlt : s.L i k + s.L k j < s.L i j
    · rw [if_pos hlt, if_pos hlt]
      constructor
      · show updF t.L i j (s.L i k + s.L k j) i j = _
        rw [updF_self]
        exact (min_eq_right hlt.le).symm
      · show updF t.P i j _ i j = _
        rw [updF_self]
    · rw [if_neg hlt, if_neg hlt]
      by_cases heq : s.L i k + s.L k j = s.L i j
      · rw [if_pos heq, if_pos heq]
        constructor
        · show t.L i j = _
          rw [hij]
          exact (min_eq_left heq.symm.le).symm
        · show updF t.P i j _ i j = _
          rw [updF_self]
      · rw [if_neg heq, if_neg heq]
        refine ⟨?_, hPij⟩
        rw [hij]
        exact (min_eq_left (not_lt.1 hlt)).symm
  · rw [if_neg hg, if_neg hg]
    refine ⟨?_, hPij⟩
    rw [hij]
    have hcand : s.L i k + s.L k j = ⊤ := by
      rcases not_and_or.1 hg with h1 | h1
      · rw [not_not.1 h1, top_add]
      · rw [not_not.1 h1, add_top]
    rw [hcand]
    exact (min_eq_left le_top).symm

/-- Pointwise description of one row of a `k`-stage: folding the
`j`-loop over a duplicate-free column list `js`, starting from a state
that agrees with the stage-entry state `s` on row `k`, on the cell
`(i, k)` and on the still-unprocessed cells of row `i`, writes the
stage formula into the processed cells of row `i` and touches nothing
else.  Requires a non-negative diagonal entry `L[k][k]`, which keeps
row `k` and column `k` stable while the stage runs. -/
theorem relax_row_formula (k i : Nat) (s : Graph) (hdiag : 0 ≤ s.L k k) :
    ∀ (js : List Nat) (t : Graph), js.Nodup →
      (∀ b, t.L k b = s.L k b) → (∀ b, t.P k b = s.P k b) →
      t.L i k = s.L i k →
      (∀ b ∈ js, t.L i b = s.L i b ∧ t.P i b = s.P i b) →
      (∀ b, (js.foldl (fun u j => relax u k i j) t).L i b =
          (if b ∈ js then min (s.L i b) (s.L i k + s.L k b) else t.L i b)) ∧
      (∀ b, (js.foldl (fun u j => relax u k i j) t).P i b =
          (if b ∈ js then stageP s k i b else t.P i b)) ∧
      (∀ a b, a ≠ i → (js.foldl (fun u j => relax u k i j) t).L a b = t.L a b ∧
        (js.foldl (fun u j => relax u k i j) t).P a b = t.P a b) := by
  intro js
  induction js with
  | nil =>
    intro t _ _ _ _ _
    refine ⟨fun b => ?_, fun b => ?_, fun a b _ => ⟨rfl, rfl⟩⟩
    · rw [if_neg (List.not_mem_nil b)]
      rfl
    · rw [if_neg (List.not_mem_nil b)]
      rfl
  | cons j0 js' ih =>
    intro t hnd hkL hkP hik hprist
    have hnd' : js'.Nodup := (List.nodup_cons.1 hnd).2
    have hj0 : j0 ∉ js' := (List.nodup_cons.1 hnd).1
    have hpr0 := hprist j0 (List.mem_cons_self j0 js')
    have hcell := relax_cell_of_reads s t k i j0 hik (hkL j0) hpr0.1 (hkP j0) hpr0.2
    have hkL1 : ∀ b, (relax t k i j0).L k b = s.L k b := by
      intro b
      by_cases hc : k = i ∧ b = j0
      · obtain ⟨h1, h2⟩ := hc
        subst h1
        rw [h2, hcell.1]
        exact min_eq_left (le_add_of_nonneg_left hdiag)
      · rw [relax_L_off t k i j0 k b hc]
        exact hkL b
    have hkP1 : ∀ b, (relax t k i j0).P k b = s.P k b := by
      intro b
      by_cases hc : k = i ∧ b = j0
      · obtain ⟨h1, h2⟩ := hc
        subst h1
        rw [h2, hcell.2]
        exact stageP_row_k hdiag
      · rw [relax_P_off t k i j0 k b hc]
        exact hkP b
    have hik1 : (relax t k i j0).L i k = s.L i k := by
      by_cases hc : k = j0
      · subst hc
        rw [hcell.1]
        exact min_eq_left (le_add_of_nonneg_right hdiag)
      · rw [relax_L_off t k i j0 i k (fun hand => hc hand.2)]
        exact hik
    have hprist1 : ∀ b ∈ js',
        (relax t k i j0).L i b = s.L i b ∧ (relax t k i j0).P i b = s.P i b := by
      intro b hb
      have hbne : b ≠ j0 := fun he => hj0 (he ▸ hb)
      rw [relax_L_off t k i j0 i b (fun hand => hbne hand.2),
          relax_P_off t k i j0 i b (fun hand => hbne hand.2)]
      exact hprist b (List.mem_cons_of_mem j0 hb)
    obtain ⟨ihL, ihP, ihoff⟩ := ih (relax t k i j0) hnd' hkL1 hkP1 hik1 hprist1
    refine ⟨fun b => ?_, fun b => ?_, fun a b ha => ?_⟩
    · rw [List.foldl_cons, ihL b]
      by_cases hb' : b ∈ js'
      · rw [if_pos hb', if_pos (List.mem_cons_of_mem j0 hb')]
      · rw [if_neg hb']
        by_cases hb0 : b = j0
        · subst hb0
          rw [if_pos (List.mem_cons_self b js')]
          exact hcell.1
        · rw [if_neg (fun hmem => (List.mem_cons.1 hmem).elim hb0 hb')]
          exact relax_L_off t k i j0 i b (fun hand => hb0 hand.2)
    · rw [List.foldl_cons, ihP b]
      by_cases hb' : b ∈ js'
      · rw [if_pos hb', if_pos (List.mem_cons_of_mem j0 hb')]
      · rw [if_neg hb']
        by_cases hb0 : b = j0
        · subst hb0
          rw [if_pos (List.mem_cons_self b js')]
          exact hcell.2
        · rw [if_neg (fun hmem => (List.mem_cons.1 hmem).elim hb0 hb')]
          exact relax_P_off t k i j0 i b (fun hand => hb0 hand.2)
    · rw [List.foldl_cons]
      obtain ⟨o1, o2⟩ := ihoff a b ha
      constructor
      · rw [o1]
        exact relax_L_off t k i j0 a b (fun hand => ha hand.1)
      · rw [o2]
        exact relax_P_off t k i j0 a b (fun hand => ha hand.1)

/-- Pointwise description of a partial `k`-stage: folding the `i`-loop
over a duplicate-free row list writes the stage formula into the
processed rows (columns `< n`) and touches nothing else. -/
theorem fw_stage_formula_aux (n k : Nat) (s : Graph) (hdiag : 0 ≤ s.L k k) :
    ∀ (rows : List Nat) (t : Graph), rows.Nodup →
      (∀ b, t.L k b = s.L k b) → (∀ b, t.P k b = s.P k b) →
      (∀ a, t.L a k = s.L a k) →
      (∀ a ∈ rows, ∀ b, t.L a b = s.L a b ∧ t.P a b = s.P a b) →
      ∀ a b,
        ((rows.foldl (fun u i => relax_row n k i u) t).L a b =
          if a ∈ rows ∧ b ∈ List.range n then min (s.L a b) (s.L a k + s.L k b)
          else t.L a b) ∧
        ((rows.foldl (fun u i => relax_row n k i u) t).P a b =
          if a ∈ rows ∧ b ∈ List.range n then stageP s k a b else t.P a b) := by
  intro rows
  induction rows with
  | nil =>
    intro t _ _ _ _ _ a b
    constructor
    · rw [if_neg (fun hand => List.not_mem_nil a hand.1)]
      rfl
    · rw [if_neg (fun hand => List.not_mem_nil a hand.1)]
      rfl
  | cons a0 rows' ih =>
    intro t hnd hkL hkP hcol hprist
    have hnd' : rows'.Nodup := (List.nodup_cons.1 hnd).2
    have ha0 : a0 ∉ rows' := (List.nodup_cons.1 hnd).1
    obtain ⟨hL1, hP1, hoff1⟩ :=
      relax_row_formula k a0 s hdiag (List.range n) t (List.nodup_range n)
        hkL hkP (hcol a0) (fun b _ => hprist a0 (List.mem_cons_self a0 rows') b)
    have hrw : (List.range n).foldl (fun u j => relax u k a0 j) t = relax_row n k a0 t := rfl
    rw [hrw] at hL1 hP1 hoff1
    have hkL1 : ∀ b, (relax_row n k a0 t).L k b = s.L k b := by
      intro b
      by_cases hc : k = a0
      · subst hc
        rw [hL1 b]
        by_cases hb : b ∈ List.range n
        · rw [if_pos hb]
          exact min_eq_left (le_add_of_nonneg_left hdiag)
        · rw [if_neg hb]
          exact hkL b
      · rw [(hoff1 k b hc).1]
        exact hkL b
    have hkP1 : ∀ b, (relax_row n k a0 t).P k b = s.P k b := by
      intro b
      by_cases hc : k = a0
      · subst hc
        rw [hP1 b]
        by_cases hb : b ∈ List.range n
        · rw [if_pos hb]
          exact stageP_row_k hdiag
        · rw [if_neg hb]
          exact hkP b
      · rw [(hoff1 k b hc).2]
        exact hkP b
    have hcol1 : ∀ a, (relax_row n k a0 t).L a k = s.L a k := by
      intro a
      by_cases hc : a = a0
      · subst hc
        rw [hL1 k]
        by_cases hb : k ∈ List.range n
        · rw [if_pos hb]
          exact min_eq_left (le_add_of_nonneg_right hdiag)
        · rw [if_neg hb]
          exact hcol a
      · rw [(hoff1 a k hc).1]
        exact hcol a
    have hprist1 : ∀ a ∈ rows', ∀ b,
        (relax_row n k a0 t).L a b = s.L a b ∧ (relax_row n k a0 t).P a b = s.P a b := by
      intro a ha b
      have hane : a ≠ a0 := fun he => ha0 (he ▸ ha)
      obtain ⟨o1, o2⟩ := hoff1 a b hane
      rw [o1, o2]
      exact hprist a (List.mem_cons_of_mem a0 ha) b
    have ihab := ih (relax_row n k a0 t) hnd' hkL1 hkP1 hcol1 hprist1
    intro a b
    constructor
    · rw [List.foldl_cons, (ihab a b).1]
      by_cases hbr : b ∈ List.range n
      · by_cases ha' : a ∈ rows'
        · rw [if_pos ⟨ha', hbr⟩, if_pos ⟨List.mem_cons_of_mem a0 ha', hbr⟩]
        · rw [if_neg (fun hand => ha' hand.1)]
          by_cases ha0' : a = a0
          · subst ha0'
            rw [if_pos ⟨List.mem_cons_self a rows', hbr⟩, hL1 b, if_pos hbr]
          · rw [if_neg (fun hand => (List.mem_cons.1 hand.1).elim ha0' ha')]
            exact (hoff1 a b ha0').1
      · rw [if_neg (fun hand => hbr hand.2), if_neg (fun hand => hbr hand.2)]
        by_cases ha0' : a = a0
        · subst ha0'
          rw [hL1 b, if_neg hbr]
        · exact (hoff1 a b ha0').1
    · rw [List.foldl_cons, (ihab a b).2]
      by_cases hbr : b ∈ List.range n
      · by_cases ha' : a ∈ rows'
        · rw [if_pos ⟨ha', hbr⟩, if_pos ⟨List.mem_cons_of_mem a0 ha', hbr⟩]
        · rw [if_neg (fun hand => ha' hand.1)]
          by_cases ha0' : a = a0
          · subst ha0'
            rw [if_pos ⟨List.mem_cons_self a rows', hbr⟩, hP1 b, if_pos hbr]
          · rw [if_neg (fun hand => (List.mem_cons.1 hand.1).elim ha0' ha')]
            exact (hoff1 a b ha0').2
      · rw [if_neg (fun hand => hbr hand.2), if_neg (fun hand => hbr hand.2)]
        by_cases ha0' : a = a0
        · subst ha0'
          rw [hP1 b, if_neg hbr]
        · exact (hoff1 a b ha0').2

/-- The pointwise description of one complete `k`-stage, valid when
the stage starts with `L[k][k] ≥ 0`: inside `[0,n)²` the new distance
is the minimum of the old one and the candidate through `k`, and the
new predecessor list is `stageP`; outside, nothing changes.  All reads
on the right-hand sides happen in the stage-entry state. -/
theorem fw_stage_formula (n k : Nat) (s : Graph) (hdiag : 0 ≤ s.L k k) :
    ∀ a b,
      ((fw_stage n k s).L a b =
        if a < n ∧ b < n then min (s.L a b) (s.L a k + s.L k b) else s.L a b) ∧
      ((fw_stage n k s).P a b =
        if a < n ∧ b < n then stageP s k a b else s.P a b) := by
  intro a b
  have h := fw_stage_formula_aux n k s hdiag (List.range n) s (List.nodup_range n)
    (fun _ => rfl) (fun _ => rfl) (fun _ => rfl) (fun _ _ _ => ⟨rfl, rfl⟩) a b
  have hcond : (a ∈ List.range n ∧ b ∈ List.range n) ↔ (a < n ∧ b < n) := by
    rw [List.mem_range, List.mem_range]
  constructor
  · rw [show fw_stage n k s = (List.range n).foldl (fun u i => relax_row n k i u) s from rfl,
      h.1]
    by_cases hc : a < n ∧ b < n
    · rw [if_pos (hcond.2 hc), if_pos hc]
    · rw [if_neg (fun hx => hc (hcond.1 hx)), if_neg hc]
  · rw [show fw_stage n k s = (List.range n).foldl (fun u i => relax_row n k i u) s from rfl,
      h.2]
    by_cases hc : a < n ∧ b < n
    · rw [if_pos (hcond.2 hc), if_pos hc]
    · rw [if_neg (fun hx => hc (hcond.1 hx)), if_neg hc]

/-- The distance from `i` to a candidate predecessor `q`: zero when
`q` is the start vertex itself, otherwise the matrix entry. -/
def pred_dist (s : Graph) (i q : Nat) : WithTop Int :=
  if q = i then 0 else s.L i q

theorem pred_dist_self (s : Graph) (i : Nat) : pred_dist s i i = 0 := by
  unfold pred_dist
  rw [if_pos rfl]

theorem pred_dist_ne (s : Graph) {i q : Nat} (h : q ≠ i) : pred_dist s i q = s.L i q := by
  unfold pred_dist
  rw [if_neg h]

/-- Characterisation of every predecessor list after the stages
`0, …, k-1` have run: `P[i][j]` holds exactly the (casts of the)
vertices `q` that carry an original edge into `j` (`E q j`), are the
start vertex itself or an already processed intermediate (`q = i ∨
q < k`), are reachable (`pred_dist ≠ ⊤`), and close an optimal path:
`pred_dist i q + W q j = L[i][j]`. -/
def char_inv (W : Nat → Nat → WithTop Int) (E : Nat → Nat → Prop) (k : Nat)
    (s : Graph) : Prop :=
  ∀ i j (p : Int),
    p ∈ s.P i j ↔ ∃ q : Nat, p = (q : Int) ∧ E q j ∧ (q = i ∨ q < k) ∧
      pred_dist s i q ≠ ⊤ ∧ pred_dist s i q + W q j = s.L i j

/-- One `k`-stage carries the predecessor characterisation from `k` to
`k + 1`. -/
theorem char_stage (W : Nat → Nat → WithTop Int) (E : Nat → Nat → Prop)
    (n k : Nat) (s : Graph) (hk : k < n)
    (hnn : ∀ (v : Nat) (ms : List Nat), is_walk W (v :: ms ++ [v]) →
      0 ≤ walk_cost W (v :: ms ++ [v]))
    (hW : ∀ a b, W a b ≠ ⊤ → a < n ∧ b < n)
    (hEW : ∀ q b, E q b → W q b ≠ ⊤)
    (hLout : ∀ a b, s.L a b ≠ ⊤ → a < n ∧ b < n)
    (hPout : ∀ a b, ¬(a < n ∧ b < n) → s.P a b = [])
    (hub : ub_prop W k s) (hsd : sound_bd W k s)
    (hchar : char_inv W E k s) :
    char_inv W E (k + 1) (fw_stage n k s) := by
  have hdiag : ∀ v, 0 ≤ s.L v v := diag_nonneg W k s hsd hnn
  have hform := fw_stage_formula n k s (hdiag k)
  have hub' : ub_prop W (k + 1) (fw_stage n k s) := ub_stage W n k s hW hub
  have hsd' : sound_bd W (k + 1) (fw_stage n k s) := sound_bd_stage W n k s hsd
  have hLW : ∀ a b, s.L a b ≤ W a b := L_le_W W k s hub
  have h0t : (0 : WithTop Int) ≠ ⊤ := by decide
  have hflag_up : ∀ q : Nat, (q = k ∨ q < k) → q < k + 1 := by
    intro q h
    rcases h with h | h <;> omega
  intro i j p
  by_cases hin : i < n ∧ j < n
  case neg =>
    have hPP : (fw_stage n k s).P i j = s.P i j := by
      rw [(hform i j).2, if_neg hin]
    rw [hPP, hPout i j hin]
    constructor
    · intro hmem
      exact absurd hmem (List.not_mem_nil p)
    · rintro ⟨q, rfl, hEq, hflag, hfin, -⟩
      exfalso
      have hqjn := hW q j (hEW q j hEq)
      have hiln : ¬ i < n := fun hi2 => hin ⟨hi2, hqjn.2⟩
      by_cases hqi : q = i
      · exact hiln (hqi ▸ hqjn.1)
      · rw [pred_dist_ne _ hqi] at hfin
        have hLL : (fw_stage n k s).L i q = s.L i q := by
          rw [(hform i q).1, if_neg (fun hand => hiln hand.1)]
        rw [hLL] at hfin
        exact hiln (hLout i q hfin).1
  case pos =>
    obtain ⟨hi, hj⟩ := hin
    have hLij' : (fw_stage n k s).L i j = min (s.L i j) (s.L i k + s.L k j) := by
      rw [(hform i j).1, if_pos ⟨hi, hj⟩]
    have hPij' : (fw_stage n k s).P i j = stageP s k i j := by
      rw [(hform i j).2, if_pos ⟨hi, hj⟩]
    have hpd' : ∀ q, q < n → q ≠ i →
        pred_dist (fw_stage n k s) i q = min (s.L i q) (s.L i k + s.L k q) := by
      intro q hq hqi
      rw [pred_dist_ne _ hqi, (hform i q).1, if_pos ⟨hi, hq⟩]
    have hEE' : ∀ q, q < k + 1 → W q j ≠ ⊤ → (fw_stage n k s).L i q ≠ ⊤ →
        (fw_stage n k s).L i j ≤ (fw_stage n k s).L i q + W q j :=
      fun q hq hWq hfin =>
        L_le_edge W (k + 1) (fw_stage n k s) hub' hsd' hnn i q j hq hWq hfin
    have hEEs : ∀ a q b, q < k → W q b ≠ ⊤ → s.L a q ≠ ⊤ →
        s.L a b ≤ s.L a q + W q b :=
      fun a q b hq hWq hfin => L_le_edge W k s hub hsd hnn a q b hq hWq hfin
    have htrans : ∀ q : Nat, q < k → q < n → q ≠ i → W q j ≠ ⊤ → s.L i q ≠ ⊤ →
        s.L i q + W q j = (fw_stage n k s).L i j →
        min (s.L i q) (s.L i k + s.L k q) = s.L i q := by
      intro q hqk hqn hqi hWqj hfin heqq
      by_cases hle : s.L i q ≤ s.L i k + s.L k q
      · exact min_eq_left hle
      · exfalso
        push_neg at hle
        have hcne : s.L i k + s.L k q ≠ ⊤ := ne_top_of_lt hle
        have hS : (fw_stage n k s).L i q = min (s.L i q) (s.L i k + s.L k q) := by
          rw [(hform i q).1, if_pos ⟨hi, hqn⟩]
        have hfin' : (fw_stage n k s).L i q ≠ ⊤ := by
          rw [hS]
          exact ne_top_of_le_ne_top hcne (min_le_right _ _)
        have h1 := hEE' q (by omega) hWqj hfin'
        have h2 : (fw_stage n k s).L i q + W q j ≤ (s.L i k + s.L k q) + W q j := by
          rw [hS]
          exact add_le_add_right (min_le_right _ _) _
        have h3 : (s.L i k + s.L k q) + W q j < s.L i q + W q j :=
          WithTop.add_lt_add_right hWqj hle
        rw [heqq] at h3
        exact lt_irrefl _ (lt_of_le_of_lt (le_trans h1 h2) h3)
    have hkeep : (fw_stage n k s).L i j = s.L i j →
        ∀ q : Nat, E q j → (q = i ∨ q < k) → pred_dist s i q ≠ ⊤ →
          pred_dist s i q + W q j = s.L i j →
          ∃ q2 : Nat, (q : Int) = (q2 : Int) ∧ E q2 j ∧ (q2 = i ∨ q2 < k + 1) ∧
            pred_dist (fw_stage n k s) i q2 ≠ ⊤ ∧
            pred_dist (fw_stage n k s) i q2 + W q2 j = (fw_stage n k s).L i j := by
      intro hLeq q hEq hflag hfin heqq
      by_cases hqi : q = i
      · subst hqi
        rw [pred_dist_self] at heqq
        refine ⟨q, rfl, hEq, Or.inl rfl, ?_, ?_⟩
        · rw [pred_dist_self]
          exact h0t
        · rw [pred_dist_self, hLeq]
          exact heqq
      · have hqk : q < k := hflag.resolve_left hqi
        have hWqj := hEW q j hEq
        have hqn := (hW q j hWqj).1
        rw [pred_dist_ne _ hqi] at hfin heqq
        have hmin := htrans q hqk hqn hqi hWqj hfin (by rw [hLeq]; exact heqq)
        refine ⟨q, rfl, hEq, Or.inr (by omega), ?_, ?_⟩
        · rw [hpd' q hqn hqi, hmin]
          exact hfin
        · rw [hpd' q hqn hqi, hmin, hLeq]
          exact heqq
    rw [hPij']
    by_cases hg : s.L i k ≠ ⊤ ∧ s.L k j ≠ ⊤
    case neg =>
      -- the stage skipped this cell: candidate infinite
      have hcand : s.L i k + s.L k j = ⊤ := by
        rcases not_and_or.1 hg with h1 | h1
        · rw [not_not.1 h1, top_add]
        · rw [not_not.1 h1, add_top]
      have hLeq : (fw_stage n k s).L i j = s.L i j := by
        rw [hLij', hcand]
        exact min_eq_left le_top
      rw [stageP_guard_false hg, hchar i j p]
      constructor
      · rintro ⟨q, rfl, hEq, hflag, hfin, heqq⟩
        exact hkeep hLeq q hEq hflag hfin heqq
      · rintro ⟨q, rfl, hEq, hflag, hfin, heqq⟩
        have hWqj := hEW q j hEq
        have hqn := (hW q j hWqj).1
        by_cases hqi : q = i
        · subst hqi
          rw [pred_dist_self, hLeq] at heqq
          refine ⟨q, rfl, hEq, Or.inl rfl, ?_, ?_⟩
          · rw [pred_dist_self]
            exact h0t
          · rw [pred_dist_self]
            exact heqq
        · have hq1 : q < k + 1 := hflag.resolve_left hqi
          rw [hpd' q hqn hqi] at hfin heqq
          by_cases hqk2 : q = k
          · subst hqk2
            rw [min_eq_left (le_add_of_nonneg_right (hdiag q))] at hfin heqq
            exfalso
            have hkjtop : s.L q j = ⊤ := by
              rcases not_and_or.1 hg with h1 | h1
              · exact absurd (not_not.1 h1) hfin
              · exact not_not.1 h1
            have hle := hLW q j
            rw [hkjtop] at hle
            exact hWqj (top_le_iff.1 hle)
          · have hqk : q < k := by omega
            by_cases hle : s.L i q ≤ s.L i k + s.L k q
            · rw [min_eq_left hle] at hfin heqq
              rw [hLeq] at heqq
              refine ⟨q, rfl, hEq, Or.inr hqk, ?_, ?_⟩
              · rw [pred_dist_ne _ hqi]
                exact hfin
              · rw [pred_dist_ne _ hqi]
                exact heqq
            · push_neg at hle
              rw [min_eq_right hle.le] at hfin heqq
              exfalso
              obtain ⟨hik3, hkq3⟩ := WithTop.add_ne_top.1 hfin
              have hkjtop : s.L k j = ⊤ := by
                rcases not_and_or.1 hg with h1 | h1
                · exact absurd (not_not.1 h1) hik3
                · exact not_not.1 h1
              have h2 := hEEs k q j hqk hWqj hkq3
              rw [hkjtop] at h2
              have h3 : s.L k q + W q j = ⊤ := top_le_iff.1 h2
              have h4 : (s.L i k + s.L k q) + W q j = ⊤ := by
                rw [add_assoc, h3, add_top]
              have h5 : (s.L i k + s.L k q) + W q j ≠ ⊤ :=
                WithTop.add_ne_top.2 ⟨hfin, hWqj⟩
              exact h5 h4
    case pos =>
      by_cases hlt : s.L i k + s.L k j < s.L i j
      case pos =>
        -- strict improvement through k
        have hki : k ≠ i := by
          intro he
          subst he
          exact absurd (left_neg_of_add_lt hlt) (not_lt.2 (hdiag k))
        have hLeq : (fw_stage n k s).L i j = s.L i k + s.L k j := by
          rw [hLij']
          exact min_eq_right hlt.le
        rw [stageP_strict hg hlt, if_neg hki]
        have hmem : p ∈ add_unique [] (s.P k j) ↔ p ∈ s.P k j := by
          rw [mem_add_unique]
          simp
        rw [hmem, hchar k j p]
        constructor
        · rintro ⟨q, rfl, hEq, hflag, hfin, heqq⟩
          have hWqj := hEW q j hEq
          have hqn := (hW q j hWqj).1
          have hqi : q ≠ i := by
            intro he
            subst he
            by_cases hik2 : q = k
            · exact hki hik2.symm
            · rw [pred_dist_ne _ hik2] at hfin heqq
              have hpair := closed_pair_nonneg W k s hsd hnn q k hg.1 hfin
              have heq2 : (s.L q k + s.L k q) + W q j = s.L q k + s.L k j := by
                rw [add_assoc, heqq]
              have hWle : W q j ≤ s.L q k + s.L k j := by
                rw [← heq2]
                exact le_add_of_nonneg_left hpair
              have h5 : s.L q k + s.L k j < W q j := lt_of_lt_of_le hlt (hLW q j)
              exact absurd h5 (not_lt.2 hWle)
          have hq1 : q < k + 1 := hflag_up q hflag
          by_cases hqk2 : q = k
          · subst hqk2
            rw [pred_dist_self] at heqq
            rw [zero_add] at heqq
            refine ⟨q, rfl, hEq, Or.inr hq1, ?_, ?_⟩
            · rw [hpd' q hqn hqi, min_eq_left (le_add_of_nonneg_right (hdiag q))]
              exact hg.1
            · rw [hpd' q hqn hqi, min_eq_left (le_add_of_nonneg_right (hdiag q)), hLeq,
                heqq]
          · have hqk : q < k := hflag.resolve_left hqk2
            rw [pred_dist_ne _ hqk2] at hfin heqq
            have hminr : min (s.L i q) (s.L i k + s.L k q) = s.L i k + s.L k q := by
              by_cases hle2 : s.L i k + s.L k q ≤ s.L i q
              · exact min_eq_right hle2
              · exfalso
                push_neg at hle2
                have hfin2 : s.L i q ≠ ⊤ := ne_top_of_lt hle2
                have hS : (fw_stage n k s).L i q =
                    min (s.L i q) (s.L i k + s.L k q) := by
                  rw [(hform i q).1, if_pos ⟨hi, hqn⟩]
                have hfin3 : (fw_stage n k s).L i q ≠ ⊤ := by
                  rw [hS]
                  exact ne_top_of_le_ne_top hfin2 (min_le_left _ _)
                have h1 := hEE' q (by omega) hWqj hfin3
                have hSq : (fw_stage n k s).L i q = s.L i q := by
                  rw [hS]
                  exact min_eq_left hle2.le
                rw [hLeq, hSq] at h1
                have h2 : s.L i q + W q j < (s.L i k + s.L k q) + W q j :=
                  WithTop.add_lt_add_right hWqj hle2
                have h3 : (s.L i k + s.L k q) + W q j = s.L i k + s.L k j := by
                  rw [add_assoc, heqq]
                rw [h3] at h2
                exact lt_irrefl _ (lt_of_le_of_lt h1 h2)
            refine ⟨q, rfl, hEq, Or.inr hq1, ?_, ?_⟩
            · rw [hpd' q hqn hqi, hminr]
              exact WithTop.add_ne_top.2 ⟨hg.1, hfin⟩
            · rw [hpd' q hqn hqi, hminr, hLeq, add_assoc, heqq]
        · rintro ⟨q, rfl, hEq, hflag, hfin, heqq⟩
          have hWqj := hEW q j hEq
          have hqn := (hW q j hWqj).1
          by_cases hqi : q = i
          · subst hqi
            exfalso
            rw [pred_dist_self, zero_add, hLeq] at heqq
            have h5 : s.L q k + s.L k j < W q j := lt_of_lt_of_le hlt (hLW q j)
            rw [heqq] at h5
            exact lt_irrefl _ h5
          · have hq1 : q < k + 1 := hflag.resolve_left hqi
            rw [hpd' q hqn hqi] at hfin heqq
            by_cases hqk2 : q = k
            · subst hqk2
              rw [min_eq_left (le_add_of_nonneg_right (hdiag q))] at hfin heqq
              rw [hLeq] at heqq
              have hcan : W q j = s.L q j := WithTop.add_left_cancel hfin heqq
              refine ⟨q, rfl, hEq, Or.inl rfl, ?_, ?_⟩
              · rw [pred_dist_self]
                exact h0t
              · rw [pred_dist_self, zero_add]
                exact hcan
            · have hqk : q < k := by omega
              by_cases hle : s.L i q ≤ s.L i k + s.L k q
              · rw [min_eq_left hle] at hfin heqq
                exfalso
                rw [hLeq] at heqq
                have h1 := hEEs i q j hqk hWqj hfin
                rw [heqq] at h1
                exact absurd hlt (not_lt.2 h1)
              · push_neg at hle
                rw [min_eq_right hle.le] at hfin heqq
                obtain ⟨hik3, hkq3⟩ := WithTop.add_ne_top.1 hfin
                rw [hLeq, add_assoc] at heqq
                have hcan : s.L k q + W q j = s.L k j :=
                  WithTop.add_left_cancel hik3 heqq
                refine ⟨q, rfl, hEq, Or.inr hqk, ?_, ?_⟩
                · rw [pred_dist_ne _ hqk2]
                  exact hkq3
                · rw [pred_dist_ne _ hqk2]
                  exact hcan
      case neg =>
        by_cases heq : s.L i k + s.L k j = s.L i j
        case pos =>
          -- tie through k: merge
          have hLeq : (fw_stage n k s).L i j = s.L i j := by
            rw [hLij']
            exact min_eq_left heq.ge
          rw [stageP_tie hg hlt heq, mem_add_unique, hchar i j p, hchar k j p]
          constructor
          · rintro (⟨q, rfl, hEq, hflag, hfin, heqq⟩ | ⟨q, rfl, hEq, hflag, hfin, heqq⟩)
            · exact hkeep hLeq q hEq hflag hfin heqq
            · have hWqj := hEW q j hEq
              have hqn := (hW q j hWqj).1
              have hq1 : q < k + 1 := hflag_up q hflag
              by_cases hqi : q = i
              · subst hqi
                by_cases hik2 : q = k
                · rw [hik2, pred_dist_self, zero_add] at heqq
                  refine ⟨q, rfl, hEq, Or.inl rfl, ?_, ?_⟩
                  · rw [pred_dist_self]
                    exact h0t
                  · rw [pred_dist_self, zero_add, hLeq, hik2]
                    exact heqq
                · rw [pred_dist_ne _ hik2] at hfin heqq
                  have hpair := closed_pair_nonneg W k s hsd hnn q k hg.1 hfin
                  have heq2 : (s.L q k + s.L k q) + W q j = s.L q j := by
                    rw [add_assoc, heqq, heq]
                  have hWle : W q j ≤ s.L q j := by
                    rw [← heq2]
                    exact le_add_of_nonneg_left hpair
                  have hWeq : W q j = s.L q j := le_antisymm hWle (hLW q j)
                  refine ⟨q, rfl, hEq, Or.inl rfl, ?_, ?_⟩
                  · rw [pred_dist_self]
                    exact h0t
                  · rw [pred_dist_self, zero_add, hLeq]
                    exact hWeq
              · by_cases hqk2 : q = k
                · subst hqk2
                  rw [pred_dist_self, zero_add] at heqq
                  refine ⟨q, rfl, hEq, Or.inr hq1, ?_, ?_⟩
                  · rw [hpd' q hqn hqi, min_eq_left (le_add_of_nonneg_right (hdiag q))]
                    exact hg.1
                  · rw [hpd' q hqn hqi, min_eq_left (le_add_of_nonneg_right (hdiag q)),
                      hLeq, ← heq, heqq]
                · have hqk : q < k := hflag.resolve_left hqk2
                  rw [pred_dist_ne _ hqk2] at hfin heqq
                  have hcne : s.L i k + s.L k q ≠ ⊤ := WithTop.add_ne_top.2 ⟨hg.1, hfin⟩
                  have hminfin : min (s.L i q) (s.L i k + s.L k q) ≠ ⊤ :=
                    ne_top_of_le_ne_top hcne (min_le_right _ _)
                  have hfwiq : (fw_stage n k s).L i q =
                      min (s.L i q) (s.L i k + s.L k q) := by
                    rw [(hform i q).1, if_pos ⟨hi, hqn⟩]
                  have hle1 : min (s.L i q) (s.L i k + s.L k q) + W q j ≤ s.L i j := by
                    calc min (s.L i q) (s.L i k + s.L k q) + W q j
                        ≤ (s.L i k + s.L k q) + W q j :=
                          add_le_add_right (min_le_right _ _) _
                      _ = s.L i k + s.L k j := by rw [add_assoc, heqq]
                      _ = s.L i j := heq
                  have hge1 : s.L i j ≤ min (s.L i q) (s.L i k + s.L k q) + W q j := by
                    have h1 := hEE' q (by omega) hWqj (by rw [hfwiq]; exact hminfin)
                    rw [hLeq, hfwiq] at h1
                    exact h1
                  refine ⟨q, rfl, hEq, Or.inr hq1, ?_, ?_⟩
                  · rw [hpd' q hqn hqi]
                    exact hminfin
                  · rw [hpd' q hqn hqi, hLeq]
                    exact le_antisymm hle1 hge1
          · rintro ⟨q, rfl, hEq, hflag, hfin, heqq⟩
            have hWqj := hEW q j hEq
            have hqn := (hW q j hWqj).1
            by_cases hqi : q = i
            · subst hqi
              rw [pred_dist_self, zero_add, hLeq] at heqq
              refine Or.inl ⟨q, rfl, hEq, Or.inl rfl, ?_, ?_⟩
              · rw [pred_dist_self]
                exact h0t
              · rw [pred_dist_self, zero_add]
                exact heqq
            · have hq1 : q < k + 1 := hflag.resolve_left hqi
              rw [hpd' q hqn hqi] at hfin heqq
              by_cases hqk2 : q = k
              · subst hqk2
                rw [min_eq_left (le_add_of_nonneg_right (hdiag q))] at hfin heqq
                rw [hLeq, ← heq] at heqq
                have hcan : W q j = s.L q j := WithTop.add_left_cancel hfin heqq
                refine Or.inr ⟨q, rfl, hEq, Or.inl rfl, ?_, ?_⟩
                · rw [pred_dist_self]
                  exact h0t
                · rw [pred_dist_self, zero_add]
                  exact hcan
              · have hqk : q < k := by omega
                by_cases hle : s.L i q ≤ s.L i k + s.L k q
                · rw [min_eq_left hle] at hfin heqq
                  rw [hLeq] at heqq
                  refine Or.inl ⟨q, rfl, hEq, Or.inr hqk, ?_, ?_⟩
                  · rw [pred_dist_ne _ hqi]
                    exact hfin
                  · rw [pred_dist_ne _ hqi]
                    exact heqq
                · push_neg at hle
                  rw [min_eq_right hle.le] at hfin heqq
                  obtain ⟨hik3, hkq3⟩ := WithTop.add_ne_top.1 hfin
                  rw [hLeq, ← heq, add_assoc] at heqq
                  have hcan : s.L k q + W q j = s.L k j :=
                    WithTop.add_left_cancel hik3 heqq
                  refine Or.inr ⟨q, rfl, hEq, Or.inr hqk, ?_, ?_⟩
                  · rw [pred_dist_ne _ hqk2]
                    exact hkq3
                  · rw [pred_dist_ne _ hqk2]
                    exact hcan
        case neg =>
          -- slack: candidate strictly worse
          have hgt : s.L i j < s.L i k + s.L k j :=
            lt_of_le_of_ne (not_lt.1 hlt) (fun h => heq h.symm)
          have hLeq : (fw_stage n k s).L i j = s.L i j := by
            rw [hLij']
            exact min_eq_left (not_lt.1 hlt)
          rw [stageP_slack hg hlt heq, hchar i j p]
          constructor
          · rintro ⟨q, rfl, hEq, hflag, hfin, heqq⟩
            exact hkeep hLeq q hEq hflag hfin heqq
          · rintro ⟨q, rfl, hEq, hflag, hfin, heqq⟩
            have hWqj := hEW q j hEq
            have hqn := (hW q j hWqj).1
            by_cases hqi : q = i
            · subst hqi
              rw [pred_dist_self, zero_add, hLeq] at heqq
              refine ⟨q, rfl, hEq, Or.inl rfl, ?_, ?_⟩
              · rw [pred_dist_self]
                exact h0t
              · rw [pred_dist_self, zero_add]
                exact heqq
            · have hq1 : q < k + 1 := hflag.resolve_left hqi
              rw [hpd' q hqn hqi] at hfin heqq
              by_cases hqk2 : q = k
              · subst hqk2
                rw [min_eq_left (le_add_of_nonneg_right (hdiag q))] at hfin heqq
                exfalso
                have h1 : s.L i q + s.L q j ≤ s.L i q + W q j :=
                  add_le_add_left (hLW q j) _
                rw [heqq, hLeq] at h1
                exact absurd h1 (not_le.2 hgt)
              · have hqk : q < k := by omega
                by_cases hle : s.L i q ≤ s.L i k + s.L k q
                · rw [min_eq_left hle] at hfin heqq
                  rw [hLeq] at heqq
                  refine ⟨q, rfl, hEq, Or.inr hqk, ?_, ?_⟩
                  · rw [pred_dist_ne _ hqi]
                    exact hfin
                  · rw [pred_dist_ne _ hqi]
                    exact heqq
                · push_neg at hle
                  rw [min_eq_right hle.le] at hfin heqq
                  exfalso
                  obtain ⟨hik3, hkq3⟩ := WithTop.add_ne_top.1 hfin
                  have h2 := hEEs k q j hqk hWqj hkq3
                  have h3 : s.L i k + s.L k j ≤ s.L i k + (s.L k q + W q j) :=
                    add_le_add_left h2 _
                  rw [← add_assoc, heqq, hLeq] at h3
                  exact absurd h3 (not_le.2 hgt)

/-- `load_edges_invar`, refined with the fact that the processed edge
line is one of the file's lines. -/
theorem load_edges_invar_mem (lines : List Line) (I : Graph → Prop)
    (hstep : ∀ (s : Graph) (u v w : Int) (rest : List Int) (ui vi : Nat),
      (∃ l ∈ lines, line_ints l = some (u :: v :: w :: rest)) →
      pyIdx s.n u = some ui → pyIdx s.n v = some vi → I s →
      I { s with
          L := updF s.L ui vi (w : WithTop Int)
          initial_adj := updF s.initial_adj ui vi (w : WithTop Int)
          P := if u ∈ s.P ui vi then s.P
               else updF s.P ui vi (s.P ui vi ++ [u]) }) :
    ∀ (r : Nat) (s : Graph) (idx : Nat), I s → I (load_edges lines s idx r).1 := by
  intro r
  induction r with
  | zero => intro s idx hs; exact hs
  | succ r ih =>
    intro s idx hs
    rw [load_edges_succ]
    by_cases hidx : idx < lines.length
    · rw [dif_pos hidx]
      cases hline : line_ints (lines.get ⟨idx, hidx⟩) with
      | none => exact hs
      | some parts =>
        match parts with
        | [] => exact hs
        | [u] => exact hs
        | [u, v] => exact hs
        | u :: v :: w :: rest =>
          dsimp only
          cases hu : pyIdx s.n u with
          | none => exact hs
          | some ui =>
            cases hv : pyIdx s.n v with
            | none => exact hs
            | some vi =>
              exact ih _ (idx + 1)
                (hstep s u v w rest ui vi
                  ⟨lines.get ⟨idx, hidx⟩, List.get_mem lines idx hidx, hline⟩ hu hv hs)
    · rw [dif_neg hidx]
      exact ih s (idx + 1) hs

theorem load_edges_result_props_mem (lines : List Line) (I : Graph → Prop)
    (hstep : ∀ (s : Graph) (u v w : Int) (rest : List Int) (ui vi : Nat),
      (∃ l ∈ lines, line_ints l = some (u :: v :: w :: rest)) →
      pyIdx s.n u = some ui → pyIdx s.n v = some vi → I s →
      I { s with
          L := updF s.L ui vi (w : WithTop Int)
          initial_adj := updF s.initial_adj ui vi (w : WithTop Int)
          P := if u ∈ s.P ui vi then s.P
               else updF s.P ui vi (s.P ui vi ++ [u]) })
    (r idx : Nat) (s2 s0 : Graph) (b : Bool)
    (h : load_edges lines s2 idx r = (s0, b)) (hbase : I s2) : I s0 := by
  have hres := load_edges_invar_mem lines I hstep r s2 idx hbase
  rw [h] at hres
  exact hres

/-- All edge lines of the (blank-line-filtered) file address vertices
inside `[0, nv)`: no negative-index wrap-around is exercised. -/
def edges_in_range (nv : Int) (lines : List Line) : Bool :=
  lines.all (fun l =>
    match line_ints l with
    | some (u :: v :: _ :: _) => decide (0 ≤ u ∧ u < nv ∧ 0 ≤ v ∧ v < nv)
    | _ => true)

/-- The file (if present) only addresses vertices inside `[0, n)` on
its potential edge lines. -/
def wf_file (f : Option (List Line)) : Bool :=
  match f with
  | none => true
  | some raw =>
    match raw.filter (fun l => decide (l ≠ [])) with
    | [] => true
    | l0 :: rest =>
      match pyInt l0 with
      | none => true
      | some nv => edges_in_range nv (l0 :: rest)

/-- On a successfully loaded in-range file, every predecessor cell is
either empty or the singleton `[i]` of its own row index, and
non-empty cells live inside `[0,n)²`. -/
theorem load_success_range (s_pre : Graph) (f : Option (List Line)) (s0 : Graph)
    (h : load_from_file s_pre f = (s0, true)) (hwf : wf_file f = true) :
    (∀ i j, s0.P i j = [] ∨ s0.P i j = [(i : Int)]) ∧
    (∀ i j, s0.P i j ≠ [] → i < s0.n ∧ j < s0.n) := by
  cases f with
  | none =>
    exfalso
    have hsnd := congrArg Prod.snd h
    simp [load_from_file] at hsnd
  | some raw =>
    rw [load_from_file] at h
    unfold wf_file at hwf
    dsimp only at hwf
    cases hfil : raw.filter (fun l => decide (l ≠ [])) with
    | nil =>
      exfalso
      rw [hfil] at h
      have hsnd := congrArg Prod.snd h
      simp at hsnd
    | cons l0 rest =>
      rw [hfil] at h hwf
      dsimp only at h hwf
      cases hpy0 : pyInt l0 with
      | none =>
        exfalso
        rw [hpy0] at h
        have hsnd := congrArg Prod.snd h
        simp at hsnd
      | some nv =>
        rw [hpy0] at h hwf
        dsimp only at h hwf
        cases rest with
        | nil =>
          exfalso
          have hsnd := congrArg Prod.snd h
          simp at hsnd
        | cons l1 rest2 =>
          dsimp only at h
          cases hpy1 : pyInt l1 with
          | none =>
            exfalso
            rw [hpy1] at h
            have hsnd := congrArg Prod.snd h
            simp at hsnd
          | some m =>
            rw [hpy1] at h
            dsimp only at h
            have hall := List.all_eq_true.1 hwf
            have hI : s0.num_vertices = nv ∧
                (∀ i j, s0.P i j = [] ∨ s0.P i j = [(i : Int)]) ∧
                (∀ i j, s0.P i j ≠ [] → i < nv.toNat ∧ j < nv.toNat) := by
              refine load_edges_result_props_mem (l0 :: l1 :: rest2)
                (fun s => s.num_vertices = nv ∧
                  (∀ i j, s.P i j = [] ∨ s.P i j = [(i : Int)]) ∧
                  (∀ i j, s.P i j ≠ [] → i < nv.toNat ∧ j < nv.toNat))
                ?_ m.toNat 2 _ s0 true h ?_
              case refine_2 =>
                exact ⟨rfl, fun i j => Or.inl rfl, fun i j hne => (hne rfl).elim⟩
              case refine_1 =>
                rintro s u v w rest3 ui vi ⟨l, hl, hparse⟩ hu hv ⟨hnum, hstruct, hbnd⟩
                have hrange := hall l hl
                rw [hparse] at hrange
                have hr := of_decide_eq_true hrange
                obtain ⟨h0u, huv, h0v, hvv⟩ := hr
                have hsn : s.n = nv.toNat := by rw [Graph.n, hnum]
                have hcastn : ((nv.toNat : Nat) : Int) = nv :=
                  Int.toNat_of_nonneg (by omega)
                have hui : ui = u.toNat := by
                  rw [pyIdx, hsn] at hu
                  rw [if_pos ⟨h0u, by rw [hcastn]; exact huv⟩] at hu
                  exact (Option.some_injective _ hu).symm
                have hcastu : ((ui : Nat) : Int) = u := by
                  rw [hui]
                  exact Int.toNat_of_nonneg h0u
                have huin : ui < nv.toNat := hsn ▸ pyIdx_lt hu
                have hvin : vi < nv.toNat := hsn ▸ pyIdx_lt hv
                refine ⟨hnum, ?_, ?_⟩
                · intro i j
                  dsimp only
                  by_cases hmem2 : u ∈ s.P ui vi
                  · rw [if_pos hmem2]
                    exact hstruct i j
                  · rw [if_neg hmem2]
                    by_cases hcell : i = ui ∧ j = vi
                    · obtain ⟨h1, h2⟩ := hcell
                      subst h1
                      subst h2
                      rw [updF_self]
                      rcases hstruct i j with hc | hc
                      · rw [hc]
                        refine Or.inr ?_
                        rw [List.nil_append, hcastu]
                      · exfalso
                        apply hmem2
                        rw [hc]
                        rw [← hcastu]
                        exact List.mem_singleton.2 rfl
                    · rw [updF_of_ne _ _ hcell]
                      exact hstruct i j
                · intro i j hne
                  dsimp only at hne
                  by_cases hmem2 : u ∈ s.P ui vi
                  · rw [if_pos hmem2] at hne
                    exact hbnd i j hne
                  · rw [if_neg hmem2] at hne
                    by_cases hcell : i = ui ∧ j = vi
                    · exact ⟨hcell.1 ▸ huin, hcell.2 ▸ hvin⟩
                    · rw [updF_of_ne _ _ hcell] at hne
                      exact hbnd i j hne
            obtain ⟨hnum0, hstruct0, hbnd0⟩ := hI
            have hsn0 : s0.n = nv.toNat := by rw [Graph.n, hnum0]
            exact ⟨hstruct0, fun i j hne => hsn0 ▸ hbnd0 i j hne⟩

theorem updF_id {α : Type} (M : Nat → Nat → α) (i j : Nat) : updF M i j (M i j) = M := by
  funext a b
  by_cases h : a = i ∧ b = j
  · obtain ⟨h1, h2⟩ := h
    subst h1
    subst h2
    rw [updF_self]
  · exact updF_of_ne M _ h

/-- One stage carries the whole bundle of closure invariants from `k`
to `k + 1`. -/
theorem master_step (W : Nat → Nat → WithTop Int) (E : Nat → Nat → Prop)
    (n k : Nat) (s : Graph) (hk : k < n)
    (hnn : ∀ (v : Nat) (ms : List Nat), is_walk W (v :: ms ++ [v]) →
      0 ≤ walk_cost W (v :: ms ++ [v]))
    (hW : ∀ a b, W a b ≠ ⊤ → a < n ∧ b < n)
    (hEW : ∀ q b, E q b → W q b ≠ ⊤)
    (hub : ub_prop W k s) (hsd : sound_bd W k s)
    (hLout : ∀ a b, s.L a b ≠ ⊤ → a < n ∧ b < n)
    (hPout : ∀ a b, ¬(a < n ∧ b < n) → s.P a b = [])
    (hchar : char_inv W E k s) :
    ub_prop W (k + 1) (fw_stage n k s) ∧ sound_bd W (k + 1) (fw_stage n k s) ∧
    (∀ a b, (fw_stage n k s).L a b ≠ ⊤ → a < n ∧ b < n) ∧
    (∀ a b, ¬(a < n ∧ b < n) → (fw_stage n k s).P a b = []) ∧
    char_inv W E (k + 1) (fw_stage n k s) := by
  have hdiag : ∀ v, 0 ≤ s.L v v := diag_nonneg W k s hsd hnn
  have hform := fw_stage_formula n k s (hdiag k)
  refine ⟨ub_stage W n k s hW hub, sound_bd_stage W n k s hsd, ?_, ?_,
    char_stage W E n k s hk hnn hW hEW hLout hPout hub hsd hchar⟩
  · intro a b hab
    rw [(hform a b).1] at hab
    by_cases hc : a < n ∧ b < n
    · exact hc
    · rw [if_neg hc] at hab
      exact hLout a b hab
  · intro a b hab
    rw [(hform a b).2, if_neg hab]
    exact hPout a b hab

/-- On a successfully loaded in-range graph whose closure reports no
negative cycle, `floyd_warshall` has reached a fixed point: running it
again returns the state unchanged. -/
theorem fw_fixed (s_pre : Graph) (f : Option (List Line)) (s0 : Graph)
    (h : load_from_file s_pre f = (s0, true)) (hwf : wf_file f = true)
    (hnc : has_negative_cycle (floyd_warshall s0) = false) :
    floyd_warshall (floyd_warshall s0) = floyd_warshall s0 := by
  obtain ⟨hLA, hbnd, hdiag0, hP0⟩ := load_success_basic s_pre f s0 h
  obtain ⟨hPstruct, hPbnd⟩ := load_success_range s_pre f s0 h hwf
  have hnn := no_neg_closed s_pre f s0 h hnc
  have hW : ∀ a b, s0.initial_adj a b ≠ ⊤ → a < s0.n ∧ b < s0.n := by
    intro a b hab
    refine hbnd a b ?_
    rw [hLA]
    exact hab
  have hEW : ∀ q b, s0.P q b ≠ [] → s0.initial_adj q b ≠ ⊤ := by
    intro q b hq
    rw [← hLA]
    by_cases hqb : q = b
    · subst hqb
      exact hdiag0 q (hPbnd q q hq).1
    · exact (hP0 q b hqb).1 hq
  have hmaster : ∀ m, m ≤ s0.n →
      ub_prop s0.initial_adj m
        ((List.range m).foldl (fun t k => fw_stage s0.n k t) s0) ∧
      sound_bd s0.initial_adj m
        ((List.range m).foldl (fun t k => fw_stage s0.n k t) s0) ∧
      (∀ a b, ((List.range m).foldl (fun t k => fw_stage s0.n k t) s0).L a b ≠ ⊤ →
        a < s0.n ∧ b < s0.n) ∧
      (∀ a b, ¬(a < s0.n ∧ b < s0.n) →
        ((List.range m).foldl (fun t k => fw_stage s0.n k t) s0).P a b = []) ∧
      char_inv s0.initial_adj (fun q b => s0.P q b ≠ []) m
        ((List.range m).foldl (fun t k => fw_stage s0.n k t) s0) := by
    intro m
    induction m with
    | zero =>
      intro _
      simp only [List.range_zero, List.foldl_nil]
      refine ⟨?_, ?_, hbnd, ?_, ?_⟩
      · exact ub_zero _ s0 (fun i j => by rw [hLA])
      · intro i j hne
        refine ⟨[], ⟨?_, trivial⟩, fun x hx => absurd hx (List.not_mem_nil x), ?_⟩
        · rw [← hLA]
          exact hne
        · show s0.initial_adj i j + walk_cost s0.initial_adj [j] = s0.L i j
          show s0.initial_adj i j + 0 = s0.L i j
          rw [add_zero, hLA]
      · intro a b hab
        by_contra hne
        exact hab (hPbnd a b hne)
      · intro i j p
        constructor
        · intro hmem
          have hne : s0.P i j ≠ [] := by
            intro he
            rw [he] at hmem
            exact absurd hmem (List.not_mem_nil p)
          have hstruct := (hPstruct i j).resolve_left hne
          rw [hstruct] at hmem
          have hp : p = (i : Int) := List.mem_singleton.1 hmem
          refine ⟨i, hp, hne, Or.inl rfl, ?_, ?_⟩
          · rw [pred_dist_self]
            decide
          · rw [pred_dist_self, zero_add, hLA]
        · rintro ⟨q, rfl, hEq, hflag, -, -⟩
          have hq : q = i := hflag.resolve_right (by omega)
          subst hq
          have hstruct := (hPstruct q j).resolve_left hEq
          rw [hstruct]
          exact List.mem_singleton.2 rfl
    | succ m ih =>
      intro hm
      obtain ⟨hub, hsd, hLout, hPout, hchar⟩ := ih (by omega)
      rw [List.range_succ, List.foldl_append, List.foldl_cons, List.foldl_nil]
      exact master_step s0.initial_adj (fun q b => s0.P q b ≠ []) s0.n m _
        (by omega) hnn hW hEW hub hsd hLout hPout hchar
  have hFdef : (List.range s0.n).foldl (fun t k => fw_stage s0.n k t) s0 =
      floyd_warshall s0 := rfl
  obtain ⟨hubF, hsdF, hLoutF, hPoutF, hcharF⟩ := hmaster s0.n le_rfl
  rw [hFdef] at hubF hsdF hLoutF hPoutF hcharF
  have hTS : ∀ k i j, k < s0.n → i < s0.n → j < s0.n →
      (floyd_warshall s0).L i k ≠ ⊤ → (floyd_warshall s0).L k j ≠ ⊤ →
      (floyd_warshall s0).L i k + (floyd_warshall s0).L k j = (floyd_warshall s0).L i j →
      ∀ p ∈ (floyd_warshall s0).P k j, p ∈ (floyd_warshall s0).P i j := by
    intro k i j hk hi hj hik hkj heq2 p hp
    obtain ⟨q, hpq, hEq, hflag, hfin, heqq⟩ := (hcharF k j p).1 hp
    subst hpq
    have hWqj := hEW q j hEq
    have hqn := (hW q j hWqj).1
    have hpair : pred_dist (floyd_warshall s0) i q ≠ ⊤ ∧
        pred_dist (floyd_warshall s0) i q + s0.initial_adj q j =
          (floyd_warshall s0).L i j := by
      by_cases hqi : q = i
      · subst hqi
        rw [pred_dist_self]
        refine ⟨by decide, ?_⟩
        rw [zero_add]
        by_cases hqk : q = k
        · subst hqk
          rw [pred_dist_self, zero_add] at heqq
          exact heqq
        · rw [pred_dist_ne _ hqk] at hfin heqq
          have hpair0 := closed_pair_nonneg _ s0.n _ hsdF hnn q k hik hfin
          have heq3 : ((floyd_warshall s0).L q k + (floyd_warshall s0).L k q) +
              s0.initial_adj q j = (floyd_warshall s0).L q j := by
            rw [add_assoc, heqq, heq2]
          have hWle : s0.initial_adj q j ≤ (floyd_warshall s0).L q j := by
            rw [← heq3]
            exact le_add_of_nonneg_left hpair0
          have hLle : (floyd_warshall s0).L q j ≤ s0.initial_adj q j :=
            L_le_W _ s0.n _ hubF q j
          exact le_antisymm hWle hLle
      · by_cases hqk : q = k
        · subst hqk
          rw [pred_dist_self, zero_add] at heqq
          rw [pred_dist_ne _ hqi]
          refine ⟨hik, ?_⟩
          rw [heqq]
          exact heq2
        · rw [pred_dist_ne _ hqk] at hfin heqq
          rw [pred_dist_ne _ hqi]
          have htri2 := triangle_closure s_pre f s0 h hnc i q k hi hqn hk hik hfin
          have hfin2 : (floyd_warshall s0).L i q ≠ ⊤ :=
            ne_top_of_le_ne_top (WithTop.add_ne_top.2 ⟨hik, hfin⟩) htri2
          refine ⟨hfin2, ?_⟩
          have hle1 : (floyd_warshall s0).L i q + s0.initial_adj q j ≤
              (floyd_warshall s0).L i j := by
            calc (floyd_warshall s0).L i q + s0.initial_adj q j
                ≤ ((floyd_warshall s0).L i k + (floyd_warshall s0).L k q) +
                  s0.initial_adj q j := add_le_add_right htri2 _
              _ = (floyd_warshall s0).L i k + (floyd_warshall s0).L k j := by
                  rw [add_assoc, heqq]
              _ = (floyd_warshall s0).L i j := heq2
          have hge1 : (floyd_warshall s0).L i j ≤
              (floyd_warshall s0).L i q + s0.initial_adj q j :=
            L_le_edge _ s0.n _ hubF hsdF hnn i q j hqn hWqj hfin2
          exact le_antisymm hge1 hle1 |>.symm
    exact (hcharF i j _).2 ⟨q, rfl, hEq, Or.inr hqn, hpair.1, hpair.2⟩
  have hfix : ∀ k i j, k < s0.n → i < s0.n → j < s0.n →
      relax (floyd_warshall s0) k i j = floyd_warshall s0 := by
    intro k i j hk hi hj
    rw [(relax_eq_amended _ k i j).1]
    unfold amended_step
    by_cases hg : (floyd_warshall s0).L i k ≠ ⊤ ∧ (floyd_warshall s0).L k j ≠ ⊤
    · rw [if_pos hg]
      dsimp only
      have htri := triangle_closure s_pre f s0 h hnc i j k hi hj hk hg.1 hg.2
      rw [if_neg (not_lt.2 htri)]
      by_cases heq2 : (floyd_warshall s0).L i k + (floyd_warshall s0).L k j =
          (floyd_warshall s0).L i j
      · rw [if_pos heq2]
        rw [add_unique_eq_self (hTS k i j hk hi hj hg.1 hg.2 heq2), updF_id]
      · rw [if_neg heq2]
    · rw [if_neg hg]
  have hA : fw_aux s0.n (floyd_warshall s0) = floyd_warshall s0 := by
    refine foldl_invar_mem (fun t k => fw_stage s0.n k t)
      (fun t => t = floyd_warshall s0) (List.range s0.n) ?_ _ rfl
    intro t k hkmem ht
    subst ht
    refine foldl_invar_mem (fun t2 i => relax_row s0.n k i t2)
      (fun t2 => t2 = floyd_warshall s0) (List.range s0.n) ?_ _ rfl
    intro t2 i himem ht2
    subst ht2
    refine foldl_invar_mem (fun t3 j => relax t3 k i j)
      (fun t3 => t3 = floyd_warshall s0) (List.range s0.n) ?_ _ rfl
    intro t3 j hjmem ht3
    subst ht3
    exact hfix k i j (List.mem_range.1 hkmem) (List.mem_range.1 himem)
      (List.mem_range.1 hjmem)
  have hFn : (floyd_warshall s0).n = s0.n := by
    rw [Graph.n, Graph.n,
      (show (floyd_warshall s0).num_vertices = s0.num_vertices from
        (fw_aux_fields s0.n s0).1)]
  show fw_aux (floyd_warshall s0).n (floyd_warshall s0) = floyd_warshall s0
  rw [hFn]
  exact hA

/-- C5, amended.  On a successfully constructed graph that stays
inside `[0,n)` (no negative-index wrap) and whose closure reports no
negative cycle, running `floyd_warshall` a second time on the matrices
produced by the first run changes nothing: `L` and `P` are identical
after the second run.  With a negative cycle the claim fails
(counterexample below), because the first run never reaches a fixed
point of the relaxation. -/
theorem C5_idempotent (s_pre : Graph) (f : Option (List Line)) (s0 : Graph)
    (h : load_from_file s_pre f = (s0, true)) (hwf : wf_file f = true)
    (hnc : has_negative_cycle (floyd_warshall s0) = false) :
    (floyd_warshall (floyd_warshall s0)).L = (floyd_warshall s0).L ∧
    (floyd_warshall (floyd_warshall s0)).P = (floyd_warshall s0).P := by
  rw [fw_fixed s_pre f s0 h hwf hnc]
  exact ⟨rfl, rfl⟩

/-- Witness for `C5_idempotent` on the closed Example 2. -/
theorem C5_witness :
    (floyd_warshall (floyd_warshall g_tie)).L = (floyd_warshall g_tie).L ∧
    (floyd_warshall (floyd_warshall g_tie)).P = (floyd_warshall g_tie).P :=
  C5_idempotent initial_graph (some file_tie) g_tie
    (Prod.ext rfl (by decide)) (by decide) (by decide)

/-- C5, counterexample.  On the closed Example 3 (edges `(0,1,1),
(1,0,-2)`, a negative cycle), a second run of `floyd_warshall` keeps
relaxing: `L[0][1]` drops from `0` to `-9`, so the matrices are not
identical. -/
theorem C5_counterexample :
    (floyd_warshall f_negcyc).L 0 1 = some (-9) ∧ f_negcyc.L 0 1 = some 0 ∧
      (floyd_warshall f_negcyc).L 0 1 ≠ f_negcyc.L 0 1 := by
  refine ⟨by decide, by decide, ?_⟩
  intro hcontra
  rw [show (floyd_warshall f_negcyc).L 0 1 = some (-9) by decide,
    show f_negcyc.L 0 1 = some 0 by decide] at hcontra
  exact absurd hcontra (by decide)
